import Mathlib

/-!
Verification of the RESP (REdis Serialization Protocol) codec.

This file contains a shallow embedding of the codec's source
(`src/value.rs` and `src/serialize.rs`) and proofs about it.

Modelling conventions:
- Rust byte buffers (`Vec<u8>`, `&[u8]`) are `List Nat` (each element a byte value).
- Rust `String` payloads are represented by their UTF-8 byte content, again a
  `List Nat`; `str::from_utf8` is modelled by a validity check that returns the
  same bytes (Rust string equality is byte equality, so nothing is lost).
- Machine integers are `Nat`/`Int`; the `i64` overflow check performed by
  `str::parse::<i64>` is made explicit in `parseI64`.
- The recursive parser is written with an explicit `fuel` argument so the
  recursion is structural; the decoder always supplies `buffer.length + 1`
  fuel, which exceeds the recursion depth actually reachable (each nesting
  level of the grammar consumes at least one byte of the buffer), so the fuel
  never runs out on the paths the code can take.
- `Result<()>` from `Decoder::feed` is modelled as `Option ErrorMessage`
  (`none` = `Ok(())`, `some m` = `Err` with the corresponding message).
-/

set_option maxRecDepth 8000

/-! ## Byte-level utilities -/

/-- UTF-8 validity of a byte sequence per RFC 3629; models the success
condition of `str::from_utf8` (rejects overlong forms, surrogates and
code points above U+10FFFF, exactly as Rust does). -/
def utf8Valid : List Nat → Bool
  | [] => true
  | b :: rest =>
    if b < 128 then utf8Valid rest
    else if b < 194 then false
    else if b < 224 then
      match rest with
      | c :: rest2 => (128 ≤ c && c < 192) && utf8Valid rest2
      | [] => false
    else if b < 240 then
      match rest with
      | c :: d :: rest2 =>
        (if b = 224 then 160 ≤ c && c < 192
         else if b = 237 then 128 ≤ c && c < 160
         else 128 ≤ c && c < 192) && ((128 ≤ d && d < 192) && utf8Valid rest2)
      | _ => false
    else if b < 245 then
      match rest with
      | c :: d :: e :: rest2 =>
        (if b = 240 then 144 ≤ c && c < 192
         else if b = 244 then 128 ≤ c && c < 144
         else 128 ≤ c && c < 192) && ((128 ≤ d && d < 192) && ((128 ≤ e && e < 192) && utf8Valid rest2))
      | _ => false
    else false

/-- models `str::from_utf8(bytes)` followed by `.to_string()`: succeeds with
the same byte content iff the bytes are valid UTF-8. -/
def parseStringBytes (bs : List Nat) : Option (List Nat) :=
  if utf8Valid bs then some bs else none

/-- decimal digit bytes of a natural number, most significant first;
the fuel argument makes the recursion structural (`n + 1` fuel always
suffices since a number has at most `n + 1` digits). -/
def digitsAux : Nat → Nat → List Nat → List Nat
  | 0, _, acc => acc
  | fuel + 1, n, acc => if n = 0 then acc else digitsAux fuel (n / 10) ((48 + n % 10) :: acc)

/-- the ASCII decimal representation of a natural number
(models `usize::to_string` / the digits of `i64::to_string`). -/
def natToDigitBytes (n : Nat) : List Nat := if n = 0 then [48] else digitsAux (n + 1) n []

/-- the ASCII decimal representation of a signed integer, with a leading
minus sign for negative values (models `i64::to_string`). -/
def intToBytes (n : Int) : List Nat :=
  if n < 0 then 45 :: natToDigitBytes n.natAbs else natToDigitBytes n.natAbs

def isDigit (b : Nat) : Bool := 48 ≤ b && b ≤ 57

/-- numeric value of a most-significant-first digit-byte string. -/
def digitsVal (bs : List Nat) : Nat := bs.foldl (fun acc b => acc * 10 + (b - 48)) 0

def i64Max : Int := 2 ^ 63 - 1

def i64Min : Int := -(2 ^ 63)

/-- models `str::from_utf8` followed by `String::parse::<i64>`: an optional
ASCII sign, then at least one ASCII decimal digit, and the value must fit in
a signed 64-bit integer. Any other byte content fails (bytes that are not
valid UTF-8 in particular contain a non-digit byte, so both failure paths of
the Rust code collapse to `none`). -/
def parseI64 : List Nat → Option Int
  | [] => none
  | b :: rest =>
    if b = 45 then
      if rest ≠ [] ∧ rest.all isDigit then
        if i64Min ≤ -(digitsVal rest : Int) then some (-(digitsVal rest : Int)) else none
      else none
    else if b = 43 then
      if rest ≠ [] ∧ rest.all isDigit then
        if (digitsVal rest : Int) ≤ i64Max then some (digitsVal rest : Int) else none
      else none
    else
      if (b :: rest).all isDigit then
        if (digitsVal (b :: rest) : Int) ≤ i64Max then some (digitsVal (b :: rest) : Int) else none
      else none

def isCrlf (a b : Nat) : Bool := a = 13 && b = 10

/-- scanning helper of `read_crlf`: first position (counting from `pos`)
holding the two bytes CR LF. -/
def readCrlfAux : List Nat → Nat → Option Nat
  | a :: b :: rest, pos => if isCrlf a b then some pos else readCrlfAux (b :: rest) (pos + 1)
  | _, _ => none

/-- models `read_crlf(buffer, start)`: position of the first CR LF pair at or
after `start` (the last byte alone cannot start a pair). -/
def readCrlf (buffer : List Nat) (start : Nat) : Option Nat :=
  readCrlfAux (buffer.drop start) start

/-- models the slice `buffer[a..b]`. -/
def subList (l : List Nat) (a b : Nat) : List Nat := (l.drop a).take (b - a)

/-- `true` iff the byte string contains no CR LF pair. -/
def noCRLF : List Nat → Bool
  | a :: b :: rest => !(isCrlf a b) && noCRLF (b :: rest)
  | _ => true

/-! ## The `Value` data model (`src/value.rs`) -/

/-- `Value` from `src/value.rs`: one RESP protocol element.
`Str`/`Error`/`Bulk` carry the UTF-8 bytes of the Rust `String`. -/
inductive Value where
  | Null : Value
  | NullArray : Value
  | Str (s : List Nat) : Value
  | Error (s : List Nat) : Value
  | Integer (n : Int) : Value
  | Bulk (s : List Nat) : Value
  | BufBulk (b : List Nat) : Value
  | Array (xs : List Value) : Value

mutual
def Value.beq : Value → Value → Bool
  | .Null, .Null => true
  | .NullArray, .NullArray => true
  | .Str s, .Str t => s == t
  | .Error s, .Error t => s == t
  | .Integer m, .Integer n => m == n
  | .Bulk s, .Bulk t => s == t
  | .BufBulk s, .BufBulk t => s == t
  | .Array xs, .Array ys => Value.beqList xs ys
  | _, _ => false
def Value.beqList : List Value → List Value → Bool
  | [], [] => true
  | x :: xs, y :: ys => Value.beq x y && Value.beqList xs ys
  | _, _ => false
end

mutual
theorem Value.beq_iff : ∀ (a b : Value), Value.beq a b = true ↔ a = b
  | .Null, b => by cases b <;> simp [Value.beq]
  | .NullArray, b => by cases b <;> simp [Value.beq]
  | .Str s, b => by cases b <;> simp [Value.beq]
  | .Error s, b => by cases b <;> simp [Value.beq]
  | .Integer n, b => by cases b <;> simp [Value.beq]
  | .Bulk s, b => by cases b <;> simp [Value.beq]
  | .BufBulk s, b => by cases b <;> simp [Value.beq]
  | .Array xs, b => by
      cases b <;> simp [Value.beq]
      exact Value.beqList_iff xs _
theorem Value.beqList_iff : ∀ (xs ys : List Value), Value.beqList xs ys = true ↔ xs = ys
  | [], [] => by simp [Value.beqList]
  | [], _ :: _ => by simp [Value.beqList]
  | _ :: _, [] => by simp [Value.beqList]
  | x :: xs, y :: ys => by
      simp [Value.beqList, Value.beq_iff x y, Value.beqList_iff xs ys]
end

instance : DecidableEq Value := fun a b => decidable_of_iff _ (Value.beq_iff a b)

/-! ## The encoder (`buf_encode`, `encode`, `encode_slice` of `src/serialize.rs`) -/

mutual
/-- `buf_encode(value, buf)` from `src/serialize.rs`: appends the wire bytes
of `value` to `buf` (the Rust code mutates `buf`; here the extended buffer is
returned). `[36,45,49,13,10]` is `"$-1\r\n"`, `[42,45,49,13,10]` is
`"*-1\r\n"`; marker bytes: 43 `+`, 45 `-`, 58 `:`, 36 `$`, 42 `*`. -/
def buf_encode : Value → List Nat → List Nat
  | .Null, buf => buf ++ [36, 45, 49, 13, 10]
  | .NullArray, buf => buf ++ [42, 45, 49, 13, 10]
  | .Str s, buf => buf ++ 43 :: (s ++ [13, 10])
  | .Error s, buf => buf ++ 45 :: (s ++ [13, 10])
  | .Integer n, buf => buf ++ 58 :: (intToBytes n ++ [13, 10])
  | .Bulk s, buf => buf ++ 36 :: (natToDigitBytes s.length ++ [13, 10] ++ s ++ [13, 10])
  | .BufBulk b, buf => buf ++ 36 :: (natToDigitBytes b.length ++ [13, 10] ++ b ++ [13, 10])
  | .Array xs, buf => buf_encode_list xs (buf ++ 42 :: (natToDigitBytes xs.length ++ [13, 10]))
/-- the `for item in val { buf_encode(item, buf) }` loop of the `Array` arm. -/
def buf_encode_list : List Value → List Nat → List Nat
  | [], buf => buf
  | v :: vs, buf => buf_encode_list vs (buf_encode v buf)
end

/-- `encode(value)` from `src/serialize.rs`. -/
def encode (v : Value) : List Nat := buf_encode v []

/-- encoding of a sequence of values written back to back. -/
def encodeList (xs : List Value) : List Nat := buf_encode_list xs []

/-- `encode_slice(slice)` from `src/serialize.rs`: wraps every string of the
slice in a `Bulk` and encodes the resulting `Array`. -/
def encode_slice (slice : List (List Nat)) : List Nat :=
  encode (.Array (slice.map .Bulk))

/-! ## The parser (`parse_one_value` of `src/serialize.rs`) -/

/-- `ErrorMessage` from `src/serialize.rs` (the argument of
`Error::new(ErrorKind::InvalidData, message.to_string())`). -/
inductive ErrorMessage where
  | ParseString
  | ParseError
  | ParseInteger
  | ParseBulk
  | ParseArray
  | ParseInvalid
deriving DecidableEq

/-- `ParseResult` from `src/serialize.rs`: a parsed value together with the
offset just past its encoding, or a protocol error. `Option` around it models
the `None` = "need more data" outcome. -/
inductive ParseResult where
  | Res (v : Value) (pos : Nat)
  | Err (m : ErrorMessage)
deriving DecidableEq

/-- result of parsing a fixed number of consecutive values (the `for` loop of
the `*` arm). -/
inductive ManyResult where
  | Res (vs : List Value) (pos : Nat)
  | Err (m : ErrorMessage)
deriving DecidableEq

/-- `RESP_MAX_SIZE`: up to 512 MB in length. -/
def RESP_MAX_SIZE : Int := 512 * 1024 * 1024

mutual
/-- `parse_one_value(buffer, offset, buf_bulk)` from `src/serialize.rs`.
The extra `fuel` argument only bounds the recursion depth (see the header
comment); every caller passes at least `buffer.length + 1`, which can never
be exhausted. All other code is a line-by-line translation of the source. -/
def parseOneValue : Nat → List Nat → Nat → Bool → Option ParseResult
  | 0, _, _, _ => none
  | fuel + 1, buffer, offset, buf_bulk =>
    let buf_len := buffer.length
    if offset + 3 > buf_len then none
    else
      let identifier := buffer.getD offset 0
      let offset1 := offset + 1
      if identifier = 43 then
        match readCrlf buffer offset1 with
        | some pos =>
          match parseStringBytes (subList buffer offset1 pos) with
          | some s => some (.Res (.Str s) (pos + 2))
          | none => some (.Err .ParseString)
        | none => none
      else if identifier = 45 then
        match readCrlf buffer offset1 with
        | some pos =>
          match parseStringBytes (subList buffer offset1 pos) with
          | some s => some (.Res (.Error s) (pos + 2))
          | none => some (.Err .ParseError)
        | none => none
      else if identifier = 58 then
        match readCrlf buffer offset1 with
        | some pos =>
          match parseI64 (subList buffer offset1 pos) with
          | some int => some (.Res (.Integer int) (pos + 2))
          | none => some (.Err .ParseInteger)
        | none => none
      else if identifier = 36 then
        match readCrlf buffer offset1 with
        | some pos =>
          match parseI64 (subList buffer offset1 pos) with
          | some int =>
            if int = -1 then some (.Res .Null (pos + 2))
            else if int < -1 ∨ RESP_MAX_SIZE ≤ int then some (.Err .ParseBulk)
            else
              let endPos := int.toNat + (pos + 2)
              if endPos + 1 ≥ buf_len then none
              else if ¬ (isCrlf (buffer.getD endPos 0) (buffer.getD (endPos + 1) 0) = true) then
                some (.Err .ParseBulk)
              else
                let bytes := subList buffer (pos + 2) endPos
                if buf_bulk then some (.Res (.BufBulk bytes) (endPos + 2))
                else
                  match parseStringBytes bytes with
                  | some s => some (.Res (.Bulk s) (endPos + 2))
                  | none => some (.Err .ParseBulk)
          | none => some (.Err .ParseBulk)
        | none => none
      else if identifier = 42 then
        match readCrlf buffer offset1 with
        | some pos =>
          match parseI64 (subList buffer offset1 pos) with
          | some int =>
            if int = -1 then some (.Res .NullArray (pos + 2))
            else if int < -1 ∨ RESP_MAX_SIZE ≤ int then some (.Err .ParseArray)
            else
              match parseManyValues fuel buffer buf_bulk int.toNat (pos + 2) with
              | some (.Res vs p) => some (.Res (.Array vs) p)
              | some (.Err m) => some (.Err m)
              | none => none
          | none => some (.Err .ParseArray)
        | none => none
      else some (.Err .ParseInvalid)
/-- the `for _ in 0..int` loop of the `*` arm: parse `count` consecutive
values starting at `offset`, collecting them in order; a nested error or
"need more data" outcome aborts the loop exactly as the `return` statements
of the source do. -/
def parseManyValues : Nat → List Nat → Bool → Nat → Nat → Option ManyResult
  | 0, _, _, _, _ => none
  | _ + 1, _, _, 0, offset => some (.Res [] offset)
  | fuel + 1, buffer, buf_bulk, count + 1, offset =>
    match parseOneValue fuel buffer offset buf_bulk with
    | some (.Res v p) =>
      match parseManyValues fuel buffer buf_bulk count p with
      | some (.Res vs q) => some (.Res (v :: vs) q)
      | some (.Err m) => some (.Err m)
      | none => none
    | some (.Err m) => some (.Err m)
    | none => none
end

/-! ## The streaming decoder (`Decoder` of `src/serialize.rs`) -/

/-- the `Decoder` struct: mode flag, cursor of consumed bytes, byte buffer,
and the queue of parsed-but-unread values. -/
structure Decoder where
  buf_bulk : Bool
  pos : Nat
  buf : List Nat
  res : List Value
deriving DecidableEq

/-- `Decoder::new()`. -/
def Decoder.new : Decoder := ⟨false, 0, [], []⟩

/-- `Decoder::with_buf_bulk()`. -/
def Decoder.with_buf_bulk : Decoder := ⟨true, 0, [], []⟩

/-- `Decoder::prune_buf`. -/
def Decoder.prune_buf (d : Decoder) : Decoder :=
  if d.pos = d.buf.length then ⟨d.buf_bulk, 0, [], d.res⟩ else d

/-- `Decoder::parse`: repeatedly parse one value from `buf[pos..]`; on
success push it, advance the cursor, prune and continue; on a protocol error
discard the whole buffer and report the error; on "need more data" return
`Ok`. The fuel only bounds the number of loop iterations; `feed` passes
`buf.length + 1`, more than one iteration per buffered byte, which is
unreachable since every parsed value consumes at least three bytes. -/
def parseLoop : Nat → Decoder → Decoder × Option ErrorMessage
  | 0, d => (d, none)
  | fuel + 1, d =>
    let slice := d.buf.drop d.pos
    match parseOneValue (slice.length + 1) slice 0 d.buf_bulk with
    | some (.Res v pos) =>
      parseLoop fuel (Decoder.prune_buf ⟨d.buf_bulk, d.pos + pos, d.buf, d.res ++ [v]⟩)
    | some (.Err m) => (Decoder.prune_buf ⟨d.buf_bulk, d.buf.length, d.buf, d.res⟩, some m)
    | none => (d, none)

/-- `Decoder::feed`: append the bytes and run the parse loop. -/
def Decoder.feed (d : Decoder) (bs : List Nat) : Decoder × Option ErrorMessage :=
  parseLoop ((d.buf ++ bs).length + 1) ⟨d.buf_bulk, d.pos, d.buf ++ bs, d.res⟩

/-- `Decoder::read`: pop the oldest queued value. -/
def Decoder.read (d : Decoder) : Option Value × Decoder :=
  match d.res with
  | [] => (none, d)
  | v :: rest => (some v, ⟨d.buf_bulk, d.pos, d.buf, rest⟩)

/-- `Decoder::buffer_len`. -/
def Decoder.buffer_len (d : Decoder) : Nat := d.buf.length

/-- `Decoder::result_len`. -/
def Decoder.result_len (d : Decoder) : Nat := d.res.length

/-- feed a list of byte chunks one `feed` call at a time; the boolean is
`true` iff every single `feed` call returned `Ok`. -/
def feedChunks : Decoder → List (List Nat) → Decoder × Bool
  | d, [] => (d, true)
  | d, c :: cs =>
    match d.feed c with
    | (d1, e) =>
      match feedChunks d1 cs with
      | (d2, ok) => (d2, e.isNone && ok)

/-- number of `parse_one_value` attempts performed by the parse loop
(instrumentation of `parseLoop`, counting one per iteration). -/
def parseLoopCount : Nat → Decoder → Nat
  | 0, _ => 0
  | fuel + 1, d =>
    let slice := d.buf.drop d.pos
    match parseOneValue (slice.length + 1) slice 0 d.buf_bulk with
    | some (.Res v pos) =>
      1 + parseLoopCount fuel (Decoder.prune_buf ⟨d.buf_bulk, d.pos + pos, d.buf, d.res ++ [v]⟩)
    | _ => 1

/-- number of `parse_one_value` attempts performed by one `feed` call. -/
def feedAttempts (d : Decoder) (bs : List Nat) : Nat :=
  parseLoopCount ((d.buf ++ bs).length + 1) ⟨d.buf_bulk, d.pos, d.buf ++ bs, d.res⟩

/-! ## List helper lemmas -/

theorem drop_len_append (pre l : List Nat) : (pre ++ l).drop pre.length = l := by
  induction pre with
  | nil => simp
  | cons a pre ih => simpa using ih

theorem drop_len_append1 (pre l : List Nat) (x : Nat) :
    (pre ++ x :: l).drop (pre.length + 1) = l := by
  have h := drop_len_append (pre ++ [x]) l
  simpa [List.append_assoc] using h

theorem getD_len_append (pre l : List Nat) (x : Nat) :
    (pre ++ x :: l).getD pre.length 0 = x := by
  induction pre with
  | nil => simp
  | cons a pre ih => simpa using ih

theorem take_len_append (s rest : List Nat) : (s ++ rest).take s.length = s := by
  induction s with
  | nil => simp
  | cons a s ih => simpa using ih

theorem subList_extract (pre s rest : List Nat) :
    subList (pre ++ (s ++ rest)) pre.length (pre.length + s.length) = s := by
  unfold subList
  rw [drop_len_append]
  have h : pre.length + s.length - pre.length = s.length := by omega
  rw [h, take_len_append]

theorem drop_append_of_le (pos : Nat) (buf c : List Nat) (h : pos ≤ buf.length) :
    (buf ++ c).drop pos = buf.drop pos ++ c := by
  induction pos generalizing buf with
  | zero => simp
  | succ p ih =>
    cases buf with
    | nil => simp at h
    | cons a buf => simpa using ih buf (by simpa using h)

/-! ## Decimal digit lemmas -/

theorem digitsAux_acc : ∀ (fuel n : Nat) (acc : List Nat),
    digitsAux fuel n acc = digitsAux fuel n [] ++ acc
  | 0, _, _ => rfl
  | fuel + 1, n, acc => by
    unfold digitsAux
    by_cases h : n = 0
    · simp [h]
    · simp only [h, if_false]
      rw [digitsAux_acc fuel (n / 10) ((48 + n % 10) :: acc),
          digitsAux_acc fuel (n / 10) [48 + n % 10]]
      simp

theorem digitsAux_all_digits : ∀ (fuel n : Nat) (acc : List Nat),
    acc.all isDigit = true → (digitsAux fuel n acc).all isDigit = true
  | 0, _, _, h => h
  | fuel + 1, n, acc, h => by
    unfold digitsAux
    by_cases h0 : n = 0
    · simpa [h0] using h
    · simp only [h0, if_false]
      apply digitsAux_all_digits
      have hm : n % 10 < 10 := Nat.mod_lt _ (by norm_num)
      simp only [List.all_cons, Bool.and_eq_true]
      exact ⟨by simp [isDigit]; omega, h⟩

theorem natToDigitBytes_all (n : Nat) : (natToDigitBytes n).all isDigit = true := by
  unfold natToDigitBytes
  by_cases h : n = 0
  · simp [h, isDigit]
  · simp only [h, if_false]
    exact digitsAux_all_digits _ _ [] rfl

theorem digitsAux_foldl : ∀ (fuel n : Nat), n < 10 ^ fuel → ∀ (a : Nat),
    (digitsAux fuel n []).foldl (fun acc b => acc * 10 + (b - 48)) a =
      a * 10 ^ (digitsAux fuel n []).length + n
  | 0, n, h, a => by
    have : n = 0 := by simpa using h
    simp [this, digitsAux]
  | fuel + 1, n, h, a => by
    by_cases h0 : n = 0
    · simp [digitsAux, h0]
    · have hdiv : n / 10 < 10 ^ fuel := by
        rw [Nat.div_lt_iff_lt_mul (by norm_num : (0:Nat) < 10)]
        calc n < 10 ^ (fuel + 1) := h
          _ = 10 ^ fuel * 10 := by ring
      have hsplit : digitsAux (fuel + 1) n [] = digitsAux fuel (n / 10) [] ++ [48 + n % 10] := by
        conv_lhs => unfold digitsAux
        simp only [h0, if_false]
        exact digitsAux_acc _ _ _
      have hm : n % 10 < 10 := Nat.mod_lt _ (by norm_num)
      have hsub : 48 + n % 10 - 48 = n % 10 := by omega
      rw [hsplit, List.foldl_append, digitsAux_foldl fuel (n / 10) hdiv a]
      simp only [List.foldl_cons, List.foldl_nil, List.length_append, List.length_cons,
        List.length_nil, hsub]
      have hdm : 10 * (n / 10) + n % 10 = n := Nat.div_add_mod n 10
      calc (a * 10 ^ (digitsAux fuel (n / 10) []).length + n / 10) * 10 + n % 10
          = a * (10 ^ (digitsAux fuel (n / 10) []).length * 10) + (10 * (n / 10) + n % 10) := by
            ring
        _ = a * 10 ^ ((digitsAux fuel (n / 10) []).length + (0 + 1)) + n := by
            rw [hdm]; ring_nf

theorem digitsVal_natToDigitBytes (n : Nat) : digitsVal (natToDigitBytes n) = n := by
  unfold natToDigitBytes digitsVal
  by_cases h : n = 0
  · simp [h]
  · simp only [h, if_false]
    have hn : n < 10 ^ (n + 1) := by
      calc n < 2 ^ n := Nat.lt_two_pow n
        _ ≤ 10 ^ n := Nat.pow_le_pow_left (by norm_num) n
        _ ≤ 10 ^ (n + 1) := Nat.pow_le_pow_right (by norm_num) (Nat.le_succ n)
    simpa using digitsAux_foldl (n + 1) n hn 0

theorem natToDigitBytes_ne_nil (n : Nat) : natToDigitBytes n ≠ [] := by
  unfold natToDigitBytes
  by_cases h : n = 0
  · simp [h]
  · simp only [h, if_false]
    unfold digitsAux
    simp only [h, if_false]
    rw [digitsAux_acc]
    simp

theorem parseI64_nat (n : Nat) (h : (n : Int) ≤ i64Max) :
    parseI64 (natToDigitBytes n) = some (n : Int) := by
  obtain ⟨b, t, hbt⟩ : ∃ b t, natToDigitBytes n = b :: t := by
    cases hx : natToDigitBytes n with
    | nil => exact absurd hx (natToDigitBytes_ne_nil n)
    | cons b t => exact ⟨b, t, rfl⟩
  have hall := natToDigitBytes_all n
  have hval := digitsVal_natToDigitBytes n
  rw [hbt] at hall hval ⊢
  have hbd : 48 ≤ b ∧ b ≤ 57 := by
    rw [List.all_cons, Bool.and_eq_true] at hall
    have := hall.1
    simpa [isDigit] using this
  simp only [parseI64]
  rw [if_neg (by omega : ¬ b = 45), if_neg (by omega : ¬ b = 43), if_pos hall, hval, if_pos h]

theorem parseI64_intToBytes (k : Int) (h1 : i64Min ≤ k) (h2 : k ≤ i64Max) :
    parseI64 (intToBytes k) = some k := by
  unfold intToBytes
  by_cases hk : k < 0
  · simp only [hk, if_true]
    have hall := natToDigitBytes_all k.natAbs
    have hval := digitsVal_natToDigitBytes k.natAbs
    have hne := natToDigitBytes_ne_nil k.natAbs
    cases hx : natToDigitBytes k.natAbs with
    | nil => exact absurd hx hne
    | cons b t =>
      rw [hx] at hall hval
      have habs : ((k.natAbs : Nat) : Int) = -k := by omega
      simp only [parseI64]
      rw [if_pos trivial, if_pos ⟨by simp, hall⟩, hval, habs, if_pos (by omega)]
      congr 1
      omega
  · simp only [hk, if_false]
    have habs : ((k.natAbs : Nat) : Int) = k := by omega
    rw [parseI64_nat k.natAbs (by omega), habs]

theorem parseI64_intToBytes_none (k : Int) (h : k < i64Min ∨ i64Max < k) :
    parseI64 (intToBytes k) = none := by
  unfold intToBytes
  by_cases hk : k < 0
  · have hk2 : k < i64Min := by
      rcases h with h | h
      · exact h
      · exfalso; unfold i64Max at h; omega
    simp only [hk, if_true]
    have hall := natToDigitBytes_all k.natAbs
    have hval := digitsVal_natToDigitBytes k.natAbs
    have hne := natToDigitBytes_ne_nil k.natAbs
    cases hx : natToDigitBytes k.natAbs with
    | nil => exact absurd hx hne
    | cons b t =>
      rw [hx] at hall hval
      have habs : ((k.natAbs : Nat) : Int) = -k := by omega
      simp only [parseI64]
      rw [if_pos trivial, if_pos ⟨by simp, hall⟩, hval, habs, if_neg (by omega)]
  · have hk2 : i64Max < k := by
      rcases h with h | h
      · exfalso; unfold i64Min at h; omega
      · exact h
    simp only [hk, if_false]
    have hall := natToDigitBytes_all k.natAbs
    have hval := digitsVal_natToDigitBytes k.natAbs
    have hne := natToDigitBytes_ne_nil k.natAbs
    have habs : ((k.natAbs : Nat) : Int) = k := by omega
    cases hx : natToDigitBytes k.natAbs with
    | nil => exact absurd hx hne
    | cons b t =>
      rw [hx] at hall hval
      have hbd : 48 ≤ b ∧ b ≤ 57 := by
        rw [List.all_cons, Bool.and_eq_true] at hall
        have := hall.1
        simpa [isDigit] using this
      simp only [parseI64]
      rw [if_neg (by omega : ¬ b = 45), if_neg (by omega : ¬ b = 43), if_pos hall, hval, habs,
        if_neg (by omega)]

/-! ## CRLF scanning lemmas -/

theorem noCRLF_of_no13 : ∀ (l : List Nat), (∀ b ∈ l, ¬ b = 13) → noCRLF l = true
  | [], _ => rfl
  | [_], _ => rfl
  | a :: b :: l, h => by
    unfold noCRLF
    have ha : ¬ a = 13 := h a (by simp)
    have hb : noCRLF (b :: l) = true :=
      noCRLF_of_no13 (b :: l) (fun x hx => h x (List.mem_cons_of_mem a hx))
    simp [isCrlf, ha, hb]

theorem noCRLF_append_cr : ∀ (l : List Nat), noCRLF l = true → noCRLF (l ++ [13]) = true
  | [], _ => rfl
  | [x], _ => by simp [noCRLF, isCrlf]
  | a :: b :: l, h => by
    unfold noCRLF at h ⊢
    rw [Bool.and_eq_true] at h
    have := noCRLF_append_cr (b :: l) h.2
    simp only [List.cons_append] at this ⊢
    rw [Bool.and_eq_true]
    exact ⟨h.1, this⟩

theorem noCRLF_take : ∀ (l : List Nat), noCRLF l = true → ∀ (k : Nat), noCRLF (l.take k) = true
  | [], _, k => by simp [List.take_nil, noCRLF]
  | [x], _, k => by cases k <;> simp [noCRLF]
  | a :: b :: l, h, 0 => rfl
  | a :: b :: l, h, 1 => rfl
  | a :: b :: l, h, k + 2 => by
    unfold noCRLF at h
    rw [Bool.and_eq_true] at h
    have h2 := noCRLF_take (b :: l) h.2 (k + 1)
    show noCRLF (a :: b :: List.take k l) = true
    have h2b : noCRLF (b :: List.take k l) = true := h2
    unfold noCRLF
    rw [Bool.and_eq_true]
    exact ⟨h.1, h2b⟩

theorem readCrlfAux_found : ∀ (s : List Nat), noCRLF s = true → ∀ (k : Nat) (r : List Nat),
    readCrlfAux (s ++ 13 :: 10 :: r) k = some (k + s.length)
  | [], _, k, r => by simp [readCrlfAux, isCrlf]
  | [x], _, k, r => by
    have hx : isCrlf x 13 = false := by simp [isCrlf]
    simp [readCrlfAux, hx, isCrlf]
  | a :: b :: s, h, k, r => by
    unfold noCRLF at h
    rw [Bool.and_eq_true] at h
    have h1 : isCrlf a b = false := by
      cases hab : isCrlf a b
      · rfl
      · rw [hab] at h; simp at h
    have := readCrlfAux_found (b :: s) h.2 (k + 1) r
    simp only [List.cons_append] at this ⊢
    unfold readCrlfAux
    rw [h1]
    simp only [Bool.false_eq_true, if_false, this, List.length_cons]
    congr 1
    omega

theorem readCrlfAux_none : ∀ (l : List Nat), noCRLF l = true → ∀ (k : Nat),
    readCrlfAux l k = none
  | [], _, _ => rfl
  | [_], _, _ => rfl
  | a :: b :: l, h, k => by
    unfold noCRLF at h
    rw [Bool.and_eq_true] at h
    have h1 : isCrlf a b = false := by
      cases hab : isCrlf a b
      · rfl
      · rw [hab] at h; simp at h
    have := readCrlfAux_none (b :: l) h.2 (k + 1)
    unfold readCrlfAux
    rw [h1]
    simpa using this

theorem natToDigitBytes_no13 (n : Nat) : ∀ b ∈ natToDigitBytes n, ¬ b = 13 := by
  intro b hb
  have hall := natToDigitBytes_all n
  rw [List.all_eq_true] at hall
  have := hall b hb
  simp [isDigit] at this
  omega

theorem noCRLF_natToDigitBytes (n : Nat) : noCRLF (natToDigitBytes n) = true :=
  noCRLF_of_no13 _ (natToDigitBytes_no13 n)

theorem noCRLF_intToBytes (k : Int) : noCRLF (intToBytes k) = true := by
  unfold intToBytes
  by_cases hk : k < 0
  · simp only [hk, if_true]
    apply noCRLF_of_no13
    intro b hb
    simp only [List.mem_cons] at hb
    rcases hb with hb | hb
    · omega
    · exact natToDigitBytes_no13 _ b hb
  · simp only [hk, if_false]
    exact noCRLF_natToDigitBytes _

/-! ## Encoder lemmas -/

mutual
theorem buf_encode_eq : ∀ (v : Value) (buf : List Nat), buf_encode v buf = buf ++ encode v
  | .Null, buf => by simp [buf_encode, encode]
  | .NullArray, buf => by simp [buf_encode, encode]
  | .Str s, buf => by simp [buf_encode, encode]
  | .Error s, buf => by simp [buf_encode, encode]
  | .Integer n, buf => by simp [buf_encode, encode]
  | .Bulk s, buf => by simp [buf_encode, encode]
  | .BufBulk b, buf => by simp [buf_encode, encode]
  | .Array xs, buf => by
    show buf_encode_list xs (buf ++ 42 :: (natToDigitBytes xs.length ++ [13, 10])) =
      buf ++ encode (.Array xs)
    rw [buf_encode_list_eq xs (buf ++ 42 :: (natToDigitBytes xs.length ++ [13, 10]))]
    show _ = buf ++ buf_encode_list xs ([] ++ 42 :: (natToDigitBytes xs.length ++ [13, 10]))
    rw [buf_encode_list_eq xs ([] ++ 42 :: (natToDigitBytes xs.length ++ [13, 10]))]
    simp [encodeList]
theorem buf_encode_list_eq : ∀ (xs : List Value) (buf : List Nat),
    buf_encode_list xs buf = buf ++ encodeList xs
  | [], buf => by simp [buf_encode_list, encodeList]
  | v :: vs, buf => by
    show buf_encode_list vs (buf_encode v buf) = buf ++ encodeList (v :: vs)
    rw [buf_encode_list_eq vs (buf_encode v buf), buf_encode_eq v buf]
    show _ = buf ++ buf_encode_list vs (buf_encode v [])
    rw [buf_encode_list_eq vs (buf_encode v []), buf_encode_eq v []]
    simp [encodeList]
end

theorem encodeList_cons (v : Value) (vs : List Value) :
    encodeList (v :: vs) = encode v ++ encodeList vs := by
  show buf_encode_list (v :: vs) [] = _
  show buf_encode_list vs (buf_encode v []) = _
  rw [buf_encode_list_eq, buf_encode_eq]
  simp [encode]

theorem encodeList_nil : encodeList [] = [] := rfl

theorem encodeList_append (xs ys : List Value) :
    encodeList (xs ++ ys) = encodeList xs ++ encodeList ys := by
  induction xs with
  | nil => simp [encodeList_nil]
  | cons v vs ih => simp [encodeList_cons, ih]

theorem encode_Null : encode .Null = [36, 45, 49, 13, 10] := rfl

theorem encode_NullArray : encode .NullArray = [42, 45, 49, 13, 10] := rfl

theorem encode_Str (s : List Nat) : encode (.Str s) = 43 :: (s ++ [13, 10]) := by
  simp [encode, buf_encode]

theorem encode_Error (s : List Nat) : encode (.Error s) = 45 :: (s ++ [13, 10]) := by
  simp [encode, buf_encode]

theorem encode_Integer (n : Int) : encode (.Integer n) = 58 :: (intToBytes n ++ [13, 10]) := by
  simp [encode, buf_encode]

theorem encode_Bulk (s : List Nat) :
    encode (.Bulk s) = 36 :: (natToDigitBytes s.length ++ [13, 10] ++ s ++ [13, 10]) := by
  simp [encode, buf_encode]

theorem encode_BufBulk (b : List Nat) :
    encode (.BufBulk b) = 36 :: (natToDigitBytes b.length ++ [13, 10] ++ b ++ [13, 10]) := by
  simp [encode, buf_encode]

theorem encode_Array (xs : List Value) :
    encode (.Array xs) = 42 :: (natToDigitBytes xs.length ++ [13, 10] ++ encodeList xs) := by
  show buf_encode_list xs ([] ++ 42 :: (natToDigitBytes xs.length ++ [13, 10])) = _
  rw [buf_encode_list_eq]
  simp

theorem three_le_encode_length (v : Value) : 3 ≤ (encode v).length := by
  cases v with
  | Null => simp [encode_Null]
  | NullArray => simp [encode_NullArray]
  | Str s => simp [encode_Str]
  | Error s => simp [encode_Error]
  | Integer n => simp [encode_Integer]
  | Bulk s => simp [encode_Bulk]; omega
  | BufBulk b => simp [encode_BufBulk]; omega
  | Array xs => simp [encode_Array]; omega

theorem encode_ne_nil (v : Value) : encode v ≠ [] := by
  have := three_le_encode_length v
  intro h
  rw [h] at this
  simp at this

/-! ## The round-trip class and the fuel measure -/

mutual
/-- the class of values whose text-mode decoding returns exactly the encoded
value: text payloads are valid UTF-8 (guaranteed by Rust `String`s) and the
integer fits an `i64` (guaranteed by Rust `i64`); additionally no `BufBulk`
(a text decoder materializes every `$` payload as `Bulk`), no CR LF inside a
simple-string or error payload (the line scanner would stop there), and bulk
lengths and array counts below `RESP_MAX_SIZE` (the decoder rejects larger
headers). -/
def Trippable : Value → Bool
  | .Null => true
  | .NullArray => true
  | .Str s => utf8Valid s && noCRLF s
  | .Error s => utf8Valid s && noCRLF s
  | .Integer n => decide (i64Min ≤ n) && decide (n ≤ i64Max)
  | .Bulk s => utf8Valid s && decide ((s.length : Int) < RESP_MAX_SIZE)
  | .BufBulk _ => false
  | .Array xs => decide ((xs.length : Int) < RESP_MAX_SIZE) && TrippableList xs
def TrippableList : List Value → Bool
  | [] => true
  | x :: xs => Trippable x && TrippableList xs
end

mutual
/-- fuel needed by `parseOneValue` to fully parse the encoding of `v`. -/
def fneed : Value → Nat
  | .Array xs => 1 + gneed xs
  | _ => 1
/-- fuel needed by `parseManyValues` to fully parse the encodings of `xs`. -/
def gneed : List Value → Nat
  | [] => 1
  | x :: xs => 1 + max (fneed x) (gneed xs)
end

theorem RESP_MAX_SIZE_eq : RESP_MAX_SIZE = 536870912 := by norm_num [RESP_MAX_SIZE]

theorem i64Max_eq : i64Max = 9223372036854775807 := by norm_num [i64Max]

theorem i64Min_eq : i64Min = -9223372036854775808 := by norm_num [i64Min]

theorem TrippableList_cons {x : Value} {xs : List Value} (h : TrippableList (x :: xs) = true) :
    Trippable x = true ∧ TrippableList xs = true := by
  unfold TrippableList at h
  rwa [Bool.and_eq_true] at h

theorem TrippableList_append {xs ys : List Value} (h : TrippableList (xs ++ ys) = true) :
    TrippableList xs = true ∧ TrippableList ys = true := by
  induction xs with
  | nil => exact ⟨rfl, h⟩
  | cons x xs ih =>
    rw [List.cons_append] at h
    obtain ⟨hx, hrest⟩ := TrippableList_cons h
    obtain ⟨h1, h2⟩ := ih hrest
    refine ⟨?_, h2⟩
    unfold TrippableList
    rw [Bool.and_eq_true]
    exact ⟨hx, h1⟩

mutual
theorem fneed_le_encode_length : ∀ (v : Value), fneed v ≤ (encode v).length
  | .Null => by simp [fneed, encode_Null]
  | .NullArray => by simp [fneed, encode_NullArray]
  | .Str s => le_trans (by simp [fneed]) (three_le_encode_length _)
  | .Error s => le_trans (by simp [fneed]) (three_le_encode_length _)
  | .Integer n => le_trans (by simp [fneed]) (three_le_encode_length _)
  | .Bulk s => le_trans (by simp [fneed]) (three_le_encode_length _)
  | .BufBulk b => le_trans (by simp [fneed]) (three_le_encode_length _)
  | .Array xs => by
    have h := gneed_le_encodeList_length xs
    show 1 + gneed xs ≤ (encode (.Array xs)).length
    rw [encode_Array]
    simp only [List.length_cons, List.length_append]
    omega
theorem gneed_le_encodeList_length : ∀ (xs : List Value), gneed xs ≤ (encodeList xs).length + 1
  | [] => by simp [gneed, encodeList_nil]
  | x :: xs => by
    have h1 := fneed_le_encode_length x
    have h2 := gneed_le_encodeList_length xs
    have h3 := three_le_encode_length x
    show 1 + max (fneed x) (gneed xs) ≤ (encodeList (x :: xs)).length + 1
    rw [encodeList_cons]
    simp only [List.length_append]
    omega
end

/-! ## Branch evaluation lemmas for `parse_one_value` -/

theorem getD_append_at (pre l : List Nat) (x i : Nat) (h : i = pre.length) :
    (pre ++ x :: l).getD i 0 = x := by subst h; exact getD_len_append pre l x

theorem subList_append_at (pre s rest : List Nat) (a b : Nat) (ha : a = pre.length)
    (hb : b = pre.length + s.length) : subList (pre ++ (s ++ rest)) a b = s := by
  subst ha; subst hb; exact subList_extract pre s rest

/-- component facts for a buffer holding a marker byte, a CRLF-free payload
and a CRLF terminator at offset `pre.length`. -/
theorem parse_line_shape (pre payload tail : List Nat) (m : Nat) (hpl : noCRLF payload = true) :
    (pre ++ (m :: (payload ++ 13 :: 10 :: tail))).getD pre.length 0 = m ∧
    readCrlf (pre ++ (m :: (payload ++ 13 :: 10 :: tail))) (pre.length + 1) =
      some (pre.length + 1 + payload.length) ∧
    subList (pre ++ (m :: (payload ++ 13 :: 10 :: tail))) (pre.length + 1)
      (pre.length + 1 + payload.length) = payload := by
  refine ⟨getD_len_append pre _ m, ?_, ?_⟩
  · unfold readCrlf
    rw [drop_len_append1]
    have h := readCrlfAux_found payload hpl (pre.length + 1) tail
    rw [h]
  · have h := subList_append_at (pre ++ [m]) payload (13 :: 10 :: tail) (pre.length + 1)
      (pre.length + 1 + payload.length) (by simp) (by simp)
    simpa [List.append_assoc] using h

theorem parse_short (fuel : Nat) (buffer : List Nat) (offset : Nat) (bb : Bool)
    (h : offset + 3 > buffer.length) : parseOneValue fuel buffer offset bb = none := by
  cases fuel with
  | zero => rfl
  | succ f => simp only [parseOneValue, if_pos h]

theorem parse_plus (f : Nat) (pre s tail : List Nat) (hno : noCRLF s = true)
    (hutf : utf8Valid s = true) :
    parseOneValue (f + 1) (pre ++ (43 :: (s ++ 13 :: 10 :: tail))) pre.length false =
      some (.Res (.Str s) (pre.length + 1 + s.length + 2)) := by
  obtain ⟨hid, hcrlf, hsub⟩ := parse_line_shape pre s tail 43 hno
  have h3 : ¬ (pre.length + 3 > (pre ++ (43 :: (s ++ 13 :: 10 :: tail))).length) := by
    simp [List.length_append]
    omega
  simp only [parseOneValue, if_neg h3, hid, hcrlf, hsub]
  simp [parseStringBytes, hutf]

theorem parse_minus (f : Nat) (pre s tail : List Nat) (hno : noCRLF s = true)
    (hutf : utf8Valid s = true) :
    parseOneValue (f + 1) (pre ++ (45 :: (s ++ 13 :: 10 :: tail))) pre.length false =
      some (.Res (.Error s) (pre.length + 1 + s.length + 2)) := by
  obtain ⟨hid, hcrlf, hsub⟩ := parse_line_shape pre s tail 45 hno
  have h3 : ¬ (pre.length + 3 > (pre ++ (45 :: (s ++ 13 :: 10 :: tail))).length) := by
    simp [List.length_append]
    omega
  simp only [parseOneValue, if_neg h3, hid, hcrlf, hsub]
  simp [parseStringBytes, hutf]

theorem parse_colon (f : Nat) (pre tail : List Nat) (n : Int) (hmin : i64Min ≤ n)
    (hmax : n ≤ i64Max) :
    parseOneValue (f + 1) (pre ++ (58 :: (intToBytes n ++ 13 :: 10 :: tail))) pre.length false =
      some (.Res (.Integer n) (pre.length + 1 + (intToBytes n).length + 2)) := by
  obtain ⟨hid, hcrlf, hsub⟩ := parse_line_shape pre (intToBytes n) tail 58 (noCRLF_intToBytes n)
  have h3 : ¬ (pre.length + 3 > (pre ++ (58 :: (intToBytes n ++ 13 :: 10 :: tail))).length) := by
    simp [List.length_append]
    omega
  have hint := parseI64_intToBytes n hmin hmax
  simp only [parseOneValue, if_neg h3, hid, hcrlf, hsub, hint]
  simp

theorem parse_dollar_neg1 (f : Nat) (pre tail : List Nat) (bb : Bool) :
    parseOneValue (f + 1) (pre ++ (36 :: (45 :: 49 :: 13 :: 10 :: tail))) pre.length bb =
      some (.Res .Null (pre.length + 5)) := by
  obtain ⟨hid, hcrlf, hsub⟩ := parse_line_shape pre [45, 49] tail 36 rfl
  have h3 : ¬ (pre.length + 3 > (pre ++ (36 :: (45 :: 49 :: 13 :: 10 :: tail))).length) := by
    simp [List.length_append]
  simp only [List.cons_append, List.nil_append, List.length_cons, List.length_nil] at hid hcrlf hsub
  have hint : parseI64 [45, 49] = some (-1) := by decide
  simp only [parseOneValue, if_neg h3, hid, hcrlf, hsub, hint]
  norm_num

theorem parse_star_neg1 (f : Nat) (pre tail : List Nat) (bb : Bool) :
    parseOneValue (f + 1) (pre ++ (42 :: (45 :: 49 :: 13 :: 10 :: tail))) pre.length bb =
      some (.Res .NullArray (pre.length + 5)) := by
  obtain ⟨hid, hcrlf, hsub⟩ := parse_line_shape pre [45, 49] tail 42 rfl
  have h3 : ¬ (pre.length + 3 > (pre ++ (42 :: (45 :: 49 :: 13 :: 10 :: tail))).length) := by
    simp [List.length_append]
  simp only [List.cons_append, List.nil_append, List.length_cons, List.length_nil] at hid hcrlf hsub
  have hint : parseI64 [45, 49] = some (-1) := by decide
  simp only [parseOneValue, if_neg h3, hid, hcrlf, hsub, hint]
  norm_num

theorem parse_invalid_marker (fuel : Nat) (pre t : List Nat) (m : Nat) (bb : Bool)
    (hm : ¬ m = 43 ∧ ¬ m = 45 ∧ ¬ m = 58 ∧ ¬ m = 36 ∧ ¬ m = 42) (hlen : 2 ≤ t.length) :
    parseOneValue (fuel + 1) (pre ++ (m :: t)) pre.length bb = some (.Err .ParseInvalid) := by
  have h3 : ¬ (pre.length + 3 > (pre ++ (m :: t)).length) := by
    simp [List.length_append]
    omega
  have hid := getD_len_append pre t m
  simp only [parseOneValue, if_neg h3, hid, if_neg hm.1, if_neg hm.2.1, if_neg hm.2.2.1,
    if_neg hm.2.2.2.1, if_neg hm.2.2.2.2]

theorem parse_line_partial (fuel : Nat) (pre t : List Nat) (m : Nat) (bb : Bool)
    (hm : m = 43 ∨ m = 45 ∨ m = 58 ∨ m = 36 ∨ m = 42) (hno : noCRLF t = true) :
    parseOneValue fuel (pre ++ (m :: t)) pre.length bb = none := by
  cases fuel with
  | zero => rfl
  | succ f =>
    by_cases h3 : pre.length + 3 > (pre ++ (m :: t)).length
    · exact parse_short _ _ _ _ h3
    · have hid : (pre ++ (m :: t)).getD pre.length 0 = m := getD_len_append pre t m
      have hcrlf : readCrlf (pre ++ (m :: t)) (pre.length + 1) = none := by
        unfold readCrlf
        rw [drop_len_append1]
        exact readCrlfAux_none t hno (pre.length + 1)
      rcases hm with h | h | h | h | h <;> subst h <;>
        simp only [parseOneValue, if_neg h3, hid, hcrlf] <;> simp

theorem parse_dollar_full (f : Nat) (pre s tail : List Nat) (bb : Bool)
    (hL : (s.length : Int) < RESP_MAX_SIZE) :
    parseOneValue (f + 1)
      (pre ++ (36 :: (natToDigitBytes s.length ++ 13 :: 10 :: (s ++ 13 :: 10 :: tail))))
      pre.length bb =
      (if bb then
        some (.Res (.BufBulk s)
          (s.length + (pre.length + 1 + (natToDigitBytes s.length).length + 2) + 2))
      else
        match parseStringBytes s with
        | some t => some (.Res (.Bulk t)
            (s.length + (pre.length + 1 + (natToDigitBytes s.length).length + 2) + 2))
        | none => some (.Err .ParseBulk)) := by
  obtain ⟨hid, hcrlf, hsub⟩ :=
    parse_line_shape pre (natToDigitBytes s.length) (s ++ 13 :: 10 :: tail) 36
      (noCRLF_natToDigitBytes s.length)
  have h3 : ¬ (pre.length + 3 >
      (pre ++ (36 :: (natToDigitBytes s.length ++ 13 :: 10 :: (s ++ 13 :: 10 :: tail)))).length) := by
    simp [List.length_append]
    omega
  have hLmax : (s.length : Int) ≤ i64Max := by rw [i64Max_eq]; rw [RESP_MAX_SIZE_eq] at hL; omega
  have hint : parseI64 (natToDigitBytes s.length) = some (s.length : Int) :=
    parseI64_nat s.length hLmax
  have hne1 : ¬ ((s.length : Int) = -1) := by omega
  have hnb : ¬ ((s.length : Int) < -1 ∨ RESP_MAX_SIZE ≤ (s.length : Int)) := by
    rw [RESP_MAX_SIZE_eq] at hL ⊢
    omega
  have e13 : (pre ++ (36 :: (natToDigitBytes s.length ++ 13 :: 10 :: (s ++ 13 :: 10 :: tail)))).getD
      (s.length + (pre.length + 1 + (natToDigitBytes s.length).length + 2)) 0 = 13 := by
    have h := getD_append_at (pre ++ 36 :: (natToDigitBytes s.length ++ (13 :: 10 :: s)))
      (10 :: tail) 13 (s.length + (pre.length + 1 + (natToDigitBytes s.length).length + 2))
      (by simp [List.length_append]; omega)
    simpa [List.append_assoc] using h
  have e10 : (pre ++ (36 :: (natToDigitBytes s.length ++ 13 :: 10 :: (s ++ 13 :: 10 :: tail)))).getD
      (s.length + (pre.length + 1 + (natToDigitBytes s.length).length + 2) + 1) 0 = 10 := by
    have h := getD_append_at (pre ++ 36 :: (natToDigitBytes s.length ++ (13 :: 10 :: (s ++ [13]))))
      tail 10 (s.length + (pre.length + 1 + (natToDigitBytes s.length).length + 2) + 1)
      (by simp [List.length_append]; omega)
    simpa [List.append_assoc] using h
  have hnotend : ¬ (s.length + (pre.length + 1 + (natToDigitBytes s.length).length + 2) + 1 ≥
      (pre ++ (36 :: (natToDigitBytes s.length ++ 13 :: 10 :: (s ++ 13 :: 10 :: tail)))).length) := by
    simp [List.length_append]
    omega
  have esub : subList (pre ++ (36 :: (natToDigitBytes s.length ++ 13 :: 10 :: (s ++ 13 :: 10 :: tail))))
      (pre.length + 1 + (natToDigitBytes s.length).length + 2)
      (s.length + (pre.length + 1 + (natToDigitBytes s.length).length + 2)) = s := by
    have h := subList_append_at (pre ++ 36 :: (natToDigitBytes s.length ++ [13, 10])) s
      (13 :: 10 :: tail) (pre.length + 1 + (natToDigitBytes s.length).length + 2)
      (s.length + (pre.length + 1 + (natToDigitBytes s.length).length + 2))
      (by simp [List.length_append]; omega) (by simp [List.length_append]; omega)
    simpa [List.append_assoc] using h
  simp only [parseOneValue, if_neg h3, hid, hcrlf, hsub, hint]
  simp only [show ¬ ((36 : Nat) = 43) by omega, if_false, show ¬ ((36 : Nat) = 45) by omega,
    show ¬ ((36 : Nat) = 58) by omega, show ((36 : Nat) = 36) by rfl, if_true, if_neg hne1,
    if_neg hnb, Int.toNat_natCast, if_neg hnotend, e13, e10, esub]
  simp [isCrlf]

theorem parse_dollar_partial (fuel : Nat) (pre u : List Nat) (L : Nat) (bb : Bool)
    (hL : (L : Int) < RESP_MAX_SIZE) (hu : u.length ≤ L + 1) :
    parseOneValue fuel (pre ++ (36 :: (natToDigitBytes L ++ 13 :: 10 :: u))) pre.length bb =
      none := by
  cases fuel with
  | zero => rfl
  | succ f =>
    by_cases h3 : pre.length + 3 > (pre ++ (36 :: (natToDigitBytes L ++ 13 :: 10 :: u))).length
    · exact parse_short _ _ _ _ h3
    · obtain ⟨hid, hcrlf, hsub⟩ := parse_line_shape pre (natToDigitBytes L) u 36
        (noCRLF_natToDigitBytes L)
      have hLmax : (L : Int) ≤ i64Max := by
        rw [i64Max_eq]; rw [RESP_MAX_SIZE_eq] at hL; omega
      have hint : parseI64 (natToDigitBytes L) = some (L : Int) := parseI64_nat L hLmax
      have hne1 : ¬ ((L : Int) = -1) := by omega
      have hnb : ¬ ((L : Int) < -1 ∨ RESP_MAX_SIZE ≤ (L : Int)) := by
        rw [RESP_MAX_SIZE_eq] at hL ⊢
        omega
      have hend : L + (pre.length + 1 + (natToDigitBytes L).length + 2) + 1 ≥
          (pre ++ (36 :: (natToDigitBytes L ++ 13 :: 10 :: u))).length := by
        simp [List.length_append]
        omega
      simp only [parseOneValue, if_neg h3, hid, hcrlf, hsub, hint]
      simp only [show ¬ ((36 : Nat) = 43) by omega, if_false, show ¬ ((36 : Nat) = 45) by omega,
        show ¬ ((36 : Nat) = 58) by omega, show ((36 : Nat) = 36) by rfl, if_true, if_neg hne1,
        if_neg hnb, Int.toNat_natCast, if_pos hend]

theorem parse_dollar_bad (f : Nat) (pre tail : List Nat) (k : Int) (bb : Bool)
    (hk : k < -1 ∨ RESP_MAX_SIZE ≤ k) :
    parseOneValue (f + 1) (pre ++ (36 :: (intToBytes k ++ 13 :: 10 :: tail))) pre.length bb =
      some (.Err .ParseBulk) := by
  obtain ⟨hid, hcrlf, hsub⟩ := parse_line_shape pre (intToBytes k) tail 36 (noCRLF_intToBytes k)
  have h3 : ¬ (pre.length + 3 > (pre ++ (36 :: (intToBytes k ++ 13 :: 10 :: tail))).length) := by
    simp [List.length_append]
    omega
  by_cases hr : i64Min ≤ k ∧ k ≤ i64Max
  · have hint : parseI64 (intToBytes k) = some k := parseI64_intToBytes k hr.1 hr.2
    have hne1 : ¬ (k = -1) := by
      rw [RESP_MAX_SIZE_eq] at hk
      omega
    simp only [parseOneValue, if_neg h3, hid, hcrlf, hsub, hint]
    simp only [show ¬ ((36 : Nat) = 43) by omega, if_false, show ¬ ((36 : Nat) = 45) by omega,
      show ¬ ((36 : Nat) = 58) by omega, show ((36 : Nat) = 36) by rfl, if_true, if_neg hne1,
      if_pos hk]
  · have hout : k < i64Min ∨ i64Max < k := by omega
    have hint : parseI64 (intToBytes k) = none := parseI64_intToBytes_none k hout
    simp only [parseOneValue, if_neg h3, hid, hcrlf, hsub, hint]
    simp only [show ¬ ((36 : Nat) = 43) by omega, if_false, show ¬ ((36 : Nat) = 45) by omega,
      show ¬ ((36 : Nat) = 58) by omega, show ((36 : Nat) = 36) by rfl, if_true]

theorem parse_star_bad (f : Nat) (pre tail : List Nat) (k : Int) (bb : Bool)
    (hk : k < -1 ∨ RESP_MAX_SIZE ≤ k) :
    parseOneValue (f + 1) (pre ++ (42 :: (intToBytes k ++ 13 :: 10 :: tail))) pre.length bb =
      some (.Err .ParseArray) := by
  obtain ⟨hid, hcrlf, hsub⟩ := parse_line_shape pre (intToBytes k) tail 42 (noCRLF_intToBytes k)
  have h3 : ¬ (pre.length + 3 > (pre ++ (42 :: (intToBytes k ++ 13 :: 10 :: tail))).length) := by
    simp [List.length_append]
    omega
  by_cases hr : i64Min ≤ k ∧ k ≤ i64Max
  · have hint : parseI64 (intToBytes k) = some k := parseI64_intToBytes k hr.1 hr.2
    have hne1 : ¬ (k = -1) := by
      rw [RESP_MAX_SIZE_eq] at hk
      omega
    simp only [parseOneValue, if_neg h3, hid, hcrlf, hsub, hint]
    simp only [show ¬ ((42 : Nat) = 43) by omega, if_false, show ¬ ((42 : Nat) = 45) by omega,
      show ¬ ((42 : Nat) = 58) by omega, show ¬ ((42 : Nat) = 36) by omega,
      show ((42 : Nat) = 42) by rfl, if_true, if_neg hne1, if_pos hk]
  · have hout : k < i64Min ∨ i64Max < k := by omega
    have hint : parseI64 (intToBytes k) = none := parseI64_intToBytes_none k hout
    simp only [parseOneValue, if_neg h3, hid, hcrlf, hsub, hint]
    simp only [show ¬ ((42 : Nat) = 43) by omega, if_false, show ¬ ((42 : Nat) = 45) by omega,
      show ¬ ((42 : Nat) = 58) by omega, show ¬ ((42 : Nat) = 36) by omega,
      show ((42 : Nat) = 42) by rfl, if_true]

theorem parse_star_header (f : Nat) (pre tail : List Nat) (count : Nat) (bb : Bool)
    (hc : (count : Int) < RESP_MAX_SIZE) :
    parseOneValue (f + 1) (pre ++ (42 :: (natToDigitBytes count ++ 13 :: 10 :: tail)))
      pre.length bb =
      (match parseManyValues f (pre ++ (42 :: (natToDigitBytes count ++ 13 :: 10 :: tail))) bb
        count (pre.length + 1 + (natToDigitBytes count).length + 2) with
      | some (.Res vs p) => some (.Res (.Array vs) p)
      | some (.Err m) => some (.Err m)
      | none => none) := by
  obtain ⟨hid, hcrlf, hsub⟩ := parse_line_shape pre (natToDigitBytes count) tail 42
    (noCRLF_natToDigitBytes count)
  have h3 : ¬ (pre.length + 3 >
      (pre ++ (42 :: (natToDigitBytes count ++ 13 :: 10 :: tail))).length) := by
    simp [List.length_append]
    omega
  have hcmax : (count : Int) ≤ i64Max := by
    rw [i64Max_eq]; rw [RESP_MAX_SIZE_eq] at hc; omega
  have hint : parseI64 (natToDigitBytes count) = some (count : Int) := parseI64_nat count hcmax
  have hne1 : ¬ ((count : Int) = -1) := by omega
  have hnb : ¬ ((count : Int) < -1 ∨ RESP_MAX_SIZE ≤ (count : Int)) := by
    rw [RESP_MAX_SIZE_eq] at hc ⊢
    omega
  simp only [parseOneValue, if_neg h3, hid, hcrlf, hsub, hint]
  simp only [show ¬ ((42 : Nat) = 43) by omega, if_false, show ¬ ((42 : Nat) = 45) by omega,
    show ¬ ((42 : Nat) = 58) by omega, show ¬ ((42 : Nat) = 36) by omega,
    show ((42 : Nat) = 42) by rfl, if_true, if_neg hne1, if_neg hnb, Int.toNat_natCast]

/-! ## Parsing an encoded value -/

mutual
theorem parse_encode_main : ∀ (v : Value), Trippable v = true →
    ∀ (fuel : Nat) (pre rest : List Nat) (off : Nat), off = pre.length →
    parseOneValue fuel (pre ++ encode v ++ rest) off false =
      some (.Res v (off + (encode v).length)) ∨
    (parseOneValue fuel (pre ++ encode v ++ rest) off false = none ∧ fuel < fneed v)
  | .Null, _, fuel, pre, rest, off, hoff => by
    subst hoff
    cases fuel with
    | zero => exact Or.inr ⟨rfl, by unfold fneed; omega⟩
    | succ f =>
      left
      have h := parse_dollar_neg1 f pre rest false
      rw [encode_Null]
      simp only [List.append_assoc, List.cons_append, List.nil_append] at h ⊢
      rw [h]
      norm_num
  | .NullArray, _, fuel, pre, rest, off, hoff => by
    subst hoff
    cases fuel with
    | zero => exact Or.inr ⟨rfl, by unfold fneed; omega⟩
    | succ f =>
      left
      have h := parse_star_neg1 f pre rest false
      rw [encode_NullArray]
      simp only [List.append_assoc, List.cons_append, List.nil_append] at h ⊢
      rw [h]
      norm_num
  | .Str s, hv, fuel, pre, rest, off, hoff => by
    subst hoff
    cases fuel with
    | zero => exact Or.inr ⟨rfl, by unfold fneed; omega⟩
    | succ f =>
      left
      simp only [Trippable] at hv
      rw [Bool.and_eq_true] at hv
      have h := parse_plus f pre s rest hv.2 hv.1
      rw [encode_Str]
      simp only [List.append_assoc, List.cons_append, List.nil_append] at h ⊢
      rw [h]
      simp only [Option.some.injEq, ParseResult.Res.injEq, List.length_cons, List.length_append,
        List.length_nil, true_and]
      omega
  | .Error s, hv, fuel, pre, rest, off, hoff => by
    subst hoff
    cases fuel with
    | zero => exact Or.inr ⟨rfl, by unfold fneed; omega⟩
    | succ f =>
      left
      simp only [Trippable] at hv
      rw [Bool.and_eq_true] at hv
      have h := parse_minus f pre s rest hv.2 hv.1
      rw [encode_Error]
      simp only [List.append_assoc, List.cons_append, List.nil_append] at h ⊢
      rw [h]
      simp only [Option.some.injEq, ParseResult.Res.injEq, List.length_cons, List.length_append,
        List.length_nil, true_and]
      omega
  | .Integer n, hv, fuel, pre, rest, off, hoff => by
    subst hoff
    cases fuel with
    | zero => exact Or.inr ⟨rfl, by unfold fneed; omega⟩
    | succ f =>
      left
      simp only [Trippable] at hv
      rw [Bool.and_eq_true] at hv
      have hmin : i64Min ≤ n := of_decide_eq_true hv.1
      have hmax : n ≤ i64Max := of_decide_eq_true hv.2
      have h := parse_colon f pre rest n hmin hmax
      rw [encode_Integer]
      simp only [List.append_assoc, List.cons_append, List.nil_append] at h ⊢
      rw [h]
      simp only [Option.some.injEq, ParseResult.Res.injEq, List.length_cons, List.length_append,
        List.length_nil, true_and]
      omega
  | .Bulk s, hv, fuel, pre, rest, off, hoff => by
    subst hoff
    cases fuel with
    | zero => exact Or.inr ⟨rfl, by unfold fneed; omega⟩
    | succ f =>
      left
      simp only [Trippable] at hv
      rw [Bool.and_eq_true] at hv
      have hlen : (s.length : Int) < RESP_MAX_SIZE := of_decide_eq_true hv.2
      have h := parse_dollar_full f pre s rest false hlen
      rw [encode_Bulk]
      simp only [List.append_assoc, List.cons_append, List.nil_append] at h ⊢
      rw [h]
      simp only [Bool.false_eq_true, if_false, parseStringBytes, hv.1, if_true]
      simp only [Option.some.injEq, ParseResult.Res.injEq, List.length_cons, List.length_append,
        List.length_nil, true_and]
      omega
  | .BufBulk b, hv, _, _, _, _, _ => by
    exfalso
    simp only [Trippable] at hv
    exact Bool.false_ne_true hv
  | .Array xs, hv, fuel, pre, rest, off, hoff => by
    subst hoff
    simp only [Trippable] at hv
    rw [Bool.and_eq_true] at hv
    have hcount : ((xs.length : Int)) < RESP_MAX_SIZE := of_decide_eq_true hv.1
    cases fuel with
    | zero => exact Or.inr ⟨rfl, by unfold fneed; omega⟩
    | succ f =>
      have h := parse_star_header f pre (encodeList xs ++ rest) xs.length false hcount
      rw [encode_Array]
      simp only [List.append_assoc, List.cons_append, List.nil_append] at h ⊢
      rw [h]
      rcases parseMany_encode_main xs hv.2 f
          (pre ++ 42 :: (natToDigitBytes xs.length ++ [13, 10])) rest
          (pre.length + 1 + (natToDigitBytes xs.length).length + 2)
          (by simp [List.length_append]; omega) with hm | ⟨hm, hflt⟩
      · left
        simp only [List.append_assoc, List.cons_append, List.nil_append] at hm
        rw [hm]
        simp only [Option.some.injEq, ParseResult.Res.injEq, List.length_cons, List.length_append,
          List.length_nil, true_and]
        omega
      · right
        simp only [List.append_assoc, List.cons_append, List.nil_append] at hm
        rw [hm]
        refine ⟨rfl, ?_⟩
        unfold fneed
        omega
theorem parseMany_encode_main : ∀ (xs : List Value), TrippableList xs = true →
    ∀ (fuel : Nat) (pre rest : List Nat) (off : Nat), off = pre.length →
    parseManyValues fuel (pre ++ encodeList xs ++ rest) false xs.length off =
      some (.Res xs (off + (encodeList xs).length)) ∨
    (parseManyValues fuel (pre ++ encodeList xs ++ rest) false xs.length off = none ∧
      fuel < gneed xs)
  | [], _, fuel, pre, rest, off, hoff => by
    cases fuel with
    | zero => exact Or.inr ⟨rfl, by unfold gneed; omega⟩
    | succ f =>
      left
      show some (ManyResult.Res [] off) = _
      simp [encodeList_nil]
  | x :: xs, hxxs, fuel, pre, rest, off, hoff => by
    obtain ⟨hx, hxs⟩ := TrippableList_cons hxxs
    cases fuel with
    | zero => exact Or.inr ⟨rfl, by unfold gneed; omega⟩
    | succ f =>
      have hmax1 := le_max_left (fneed x) (gneed xs)
      have hmax2 := le_max_right (fneed x) (gneed xs)
      rw [encodeList_cons]
      rcases parse_encode_main x hx f pre (encodeList xs ++ rest) off hoff with hr | ⟨hr, hrlt⟩
      · simp only [List.append_assoc] at hr ⊢
        rcases parseMany_encode_main xs hxs f (pre ++ encode x) rest
            (off + (encode x).length) (by simp [List.length_append]; omega) with hm | ⟨hm, hmlt⟩
        · left
          simp only [List.append_assoc] at hm
          simp only [List.length_cons, parseManyValues, hr, hm]
          simp only [Option.some.injEq, ManyResult.Res.injEq, List.length_append, true_and]
          omega
        · right
          simp only [List.append_assoc] at hm
          refine ⟨?_, ?_⟩
          · simp only [List.length_cons, parseManyValues, hr, hm]
          · unfold gneed
            omega
      · right
        simp only [List.append_assoc] at hr ⊢
        refine ⟨?_, ?_⟩
        · simp only [List.length_cons, parseManyValues, hr]
        · unfold gneed
          omega
end

/-- with sufficient fuel, parsing the encoding of a trippable value succeeds
and consumes exactly the encoding. -/
theorem parse_encode (v : Value) (hv : Trippable v = true) (fuel : Nat) (pre rest : List Nat)
    (off : Nat) (hoff : off = pre.length) (hfuel : fneed v ≤ fuel) :
    parseOneValue fuel (pre ++ encode v ++ rest) off false =
      some (.Res v (off + (encode v).length)) := by
  rcases parse_encode_main v hv fuel pre rest off hoff with h | ⟨_, hlt⟩
  · exact h
  · omega

/-! ## Parsing a strict prefix of an encoded value returns "need more data" -/

theorem take_append_of_le (n : Nat) (a b : List Nat) (h : n ≤ a.length) :
    (a ++ b).take n = a.take n := by
  induction a generalizing n with
  | nil =>
    simp at h
    simp [h]
  | cons x a ih =>
    cases n with
    | zero => rfl
    | succ n =>
      simp only [List.cons_append, List.take_succ_cons]
      rw [ih n (by simpa using h)]

theorem take_append_ge (n : Nat) (a b : List Nat) (h : a.length ≤ n) :
    (a ++ b).take n = a ++ b.take (n - a.length) := by
  induction a generalizing n with
  | nil => simp
  | cons x a ih =>
    cases n with
    | zero => simp at h
    | succ n =>
      simp only [List.cons_append, List.take_succ_cons, List.length_cons]
      rw [ih n (by simpa using h)]
      simp [Nat.succ_sub_succ]

theorem prefix_ne_length_lt {q c : List Nat} (t : List Nat) (ht : q ++ t = c) (hne : q ≠ c) :
    q.length < c.length := by
  cases t with
  | nil =>
    simp at ht
    exact absurd ht hne
  | cons a t =>
    have := congrArg List.length ht
    simp [List.length_append] at this
    omega

theorem eq_take_of_append_eq {q t c : List Nat} (ht : q ++ t = c) : q = c.take q.length := by
  subst ht
  exact (take_len_append q t).symm

mutual
theorem parse_partial : ∀ (v : Value), Trippable v = true →
    ∀ (fuel : Nat) (pre q : List Nat) (off : Nat), off = pre.length →
    q <+: encode v → q ≠ encode v →
    parseOneValue fuel (pre ++ q) off false = none
  | .Null, _, fuel, pre, q, off, hoff, hpre, hne => by
    subst hoff
    obtain ⟨t, ht⟩ := hpre
    by_cases hshort : q.length < 3
    · exact parse_short _ _ _ _ (by simp [List.length_append]; omega)
    · have hqlen := prefix_ne_length_lt t ht hne
      rw [encode_Null] at hqlen
      simp at hqlen
      obtain ⟨m, q', rfl⟩ : ∃ m q', q = m :: q' := by
        cases q with
        | nil => exact absurd (by simp : (List.nil : List Nat).length < 3) hshort
        | cons m q' => exact ⟨m, q', rfl⟩
      rw [encode_Null] at ht
      simp only [List.cons_append, List.cons.injEq] at ht
      obtain ⟨rfl, ht2⟩ := ht
      simp only [List.length_cons] at hqlen
      have hq' : q' = ([45, 49, 13] : List Nat).take q'.length := by
        conv_lhs => rw [eq_take_of_append_eq ht2]
        rw [show ([45, 49, 13, 10] : List Nat) = [45, 49, 13] ++ [10] from rfl]
        exact take_append_of_le q'.length [45, 49, 13] [10] (by simp; omega)
      have hnc : noCRLF q' = true := by
        rw [hq']
        exact noCRLF_take [45, 49, 13] (by decide) q'.length
      exact parse_line_partial fuel pre q' 36 false (by omega) hnc
  | .NullArray, _, fuel, pre, q, off, hoff, hpre, hne => by
    subst hoff
    obtain ⟨t, ht⟩ := hpre
    by_cases hshort : q.length < 3
    · exact parse_short _ _ _ _ (by simp [List.length_append]; omega)
    · have hqlen := prefix_ne_length_lt t ht hne
      rw [encode_NullArray] at hqlen
      simp at hqlen
      obtain ⟨m, q', rfl⟩ : ∃ m q', q = m :: q' := by
        cases q with
        | nil => exact absurd (by simp : (List.nil : List Nat).length < 3) hshort
        | cons m q' => exact ⟨m, q', rfl⟩
      rw [encode_NullArray] at ht
      simp only [List.cons_append, List.cons.injEq] at ht
      obtain ⟨rfl, ht2⟩ := ht
      simp only [List.length_cons] at hqlen
      have hq' : q' = ([45, 49, 13] : List Nat).take q'.length := by
        conv_lhs => rw [eq_take_of_append_eq ht2]
        rw [show ([45, 49, 13, 10] : List Nat) = [45, 49, 13] ++ [10] from rfl]
        exact take_append_of_le q'.length [45, 49, 13] [10] (by simp; omega)
      have hnc : noCRLF q' = true := by
        rw [hq']
        exact noCRLF_take [45, 49, 13] (by decide) q'.length
      exact parse_line_partial fuel pre q' 42 false (by omega) hnc
  | .Str s, hv, fuel, pre, q, off, hoff, hpre, hne => by
    subst hoff
    simp only [Trippable] at hv
    rw [Bool.and_eq_true] at hv
    obtain ⟨t, ht⟩ := hpre
    by_cases hshort : q.length < 3
    · exact parse_short _ _ _ _ (by simp [List.length_append]; omega)
    · have hqlen := prefix_ne_length_lt t ht hne
      rw [encode_Str] at hqlen
      simp [List.length_append] at hqlen
      obtain ⟨m, q', rfl⟩ : ∃ m q', q = m :: q' := by
        cases q with
        | nil => exact absurd (by simp : (List.nil : List Nat).length < 3) hshort
        | cons m q' => exact ⟨m, q', rfl⟩
      rw [encode_Str] at ht
      simp only [List.cons_append, List.cons.injEq] at ht
      obtain ⟨rfl, ht2⟩ := ht
      simp only [List.length_cons] at hqlen
      have hq' : q' = (s ++ [13]).take q'.length := by
        conv_lhs => rw [eq_take_of_append_eq ht2]
        rw [show s ++ [13, 10] = (s ++ [13]) ++ [10] by simp]
        exact take_append_of_le q'.length (s ++ [13]) [10] (by simp; omega)
      have hnc : noCRLF q' = true := by
        rw [hq']
        exact noCRLF_take _ (noCRLF_append_cr s hv.2) q'.length
      exact parse_line_partial fuel pre q' 43 false (by omega) hnc
  | .Error s, hv, fuel, pre, q, off, hoff, hpre, hne => by
    subst hoff
    simp only [Trippable] at hv
    rw [Bool.and_eq_true] at hv
    obtain ⟨t, ht⟩ := hpre
    by_cases hshort : q.length < 3
    · exact parse_short _ _ _ _ (by simp [List.length_append]; omega)
    · have hqlen := prefix_ne_length_lt t ht hne
      rw [encode_Error] at hqlen
      simp [List.length_append] at hqlen
      obtain ⟨m, q', rfl⟩ : ∃ m q', q = m :: q' := by
        cases q with
        | nil => exact absurd (by simp : (List.nil : List Nat).length < 3) hshort
        | cons m q' => exact ⟨m, q', rfl⟩
      rw [encode_Error] at ht
      simp only [List.cons_append, List.cons.injEq] at ht
      obtain ⟨rfl, ht2⟩ := ht
      simp only [List.length_cons] at hqlen
      have hq' : q' = (s ++ [13]).take q'.length := by
        conv_lhs => rw [eq_take_of_append_eq ht2]
        rw [show s ++ [13, 10] = (s ++ [13]) ++ [10] by simp]
        exact take_append_of_le q'.length (s ++ [13]) [10] (by simp; omega)
      have hnc : noCRLF q' = true := by
        rw [hq']
        exact noCRLF_take _ (noCRLF_append_cr s hv.2) q'.length
      exact parse_line_partial fuel pre q' 45 false (by omega) hnc
  | .Integer n, _, fuel, pre, q, off, hoff, hpre, hne => by
    subst hoff
    obtain ⟨t, ht⟩ := hpre
    by_cases hshort : q.length < 3
    · exact parse_short _ _ _ _ (by simp [List.length_append]; omega)
    · have hqlen := prefix_ne_length_lt t ht hne
      rw [encode_Integer] at hqlen
      simp [List.length_append] at hqlen
      obtain ⟨m, q', rfl⟩ : ∃ m q', q = m :: q' := by
        cases q with
        | nil => exact absurd (by simp : (List.nil : List Nat).length < 3) hshort
        | cons m q' => exact ⟨m, q', rfl⟩
      rw [encode_Integer] at ht
      simp only [List.cons_append, List.cons.injEq] at ht
      obtain ⟨rfl, ht2⟩ := ht
      simp only [List.length_cons] at hqlen
      have hq' : q' = (intToBytes n ++ [13]).take q'.length := by
        conv_lhs => rw [eq_take_of_append_eq ht2]
        rw [show intToBytes n ++ [13, 10] = (intToBytes n ++ [13]) ++ [10] by simp]
        exact take_append_of_le q'.length (intToBytes n ++ [13]) [10] (by simp; omega)
      have hnc : noCRLF q' = true := by
        rw [hq']
        exact noCRLF_take _ (noCRLF_append_cr _ (noCRLF_intToBytes n)) q'.length
      exact parse_line_partial fuel pre q' 58 false (by omega) hnc
  | .BufBulk b, hv, _, _, _, _, _, _, _ => by
    exfalso
    simp only [Trippable] at hv
    exact Bool.false_ne_true hv
  | .Bulk s, hv, fuel, pre, q, off, hoff, hpre, hne => by
    subst hoff
    simp only [Trippable] at hv
    rw [Bool.and_eq_true] at hv
    have hlen : (s.length : Int) < RESP_MAX_SIZE := of_decide_eq_true hv.2
    obtain ⟨t, ht⟩ := hpre
    by_cases hshort : q.length < 3
    · exact parse_short _ _ _ _ (by simp [List.length_append]; omega)
    · have hqlen := prefix_ne_length_lt t ht hne
      rw [encode_Bulk] at hqlen
      simp [List.length_append] at hqlen
      obtain ⟨m, q', rfl⟩ : ∃ m q', q = m :: q' := by
        cases q with
        | nil => exact absurd (by simp : (List.nil : List Nat).length < 3) hshort
        | cons m q' => exact ⟨m, q', rfl⟩
      rw [encode_Bulk] at ht
      simp only [List.cons_append, List.cons.injEq] at ht
      obtain ⟨rfl, ht2⟩ := ht
      simp only [List.length_cons] at hqlen
      by_cases hz : q'.length ≤ (natToDigitBytes s.length).length + 1
      · have hq' : q' = (natToDigitBytes s.length ++ [13]).take q'.length := by
          conv_lhs => rw [eq_take_of_append_eq ht2]
          rw [show natToDigitBytes s.length ++ [13, 10] ++ s ++ [13, 10] =
            (natToDigitBytes s.length ++ [13]) ++ (10 :: (s ++ [13, 10])) by simp]
          exact take_append_of_le q'.length (natToDigitBytes s.length ++ [13])
            (10 :: (s ++ [13, 10])) (by simp; omega)
        have hnc : noCRLF q' = true := by
          rw [hq']
          exact noCRLF_take _ (noCRLF_append_cr _ (noCRLF_natToDigitBytes _)) q'.length
        exact parse_line_partial fuel pre q' 36 false (by omega) hnc
      · have hz2 : (natToDigitBytes s.length ++ ([13, 10] : List Nat)).length ≤ q'.length := by
          simp
          omega
        have hq' : q' = (natToDigitBytes s.length ++ [13, 10]) ++
            (s ++ [13, 10]).take (q'.length - (natToDigitBytes s.length ++ [13, 10]).length) := by
          conv_lhs => rw [eq_take_of_append_eq ht2]
          rw [show natToDigitBytes s.length ++ [13, 10] ++ s ++ [13, 10] =
            (natToDigitBytes s.length ++ [13, 10]) ++ (s ++ [13, 10]) by simp]
          exact take_append_ge q'.length (natToDigitBytes s.length ++ [13, 10]) (s ++ [13, 10]) hz2
        have hu : ((s ++ [13, 10]).take
            (q'.length - (natToDigitBytes s.length ++ [13, 10]).length)).length ≤
            s.length + 1 := by
          rw [List.length_take]
          simp only [List.length_append, List.length_cons, List.length_nil] at hqlen ⊢
          omega
        have h := parse_dollar_partial fuel pre
          ((s ++ [13, 10]).take (q'.length - (natToDigitBytes s.length ++ [13, 10]).length))
          s.length false hlen hu
        rw [hq']
        simp only [List.append_assoc, List.cons_append, List.nil_append] at h ⊢
        exact h
  | .Array xs, hv, fuel, pre, q, off, hoff, hpre, hne => by
    subst hoff
    simp only [Trippable] at hv
    rw [Bool.and_eq_true] at hv
    have hcount : ((xs.length : Int)) < RESP_MAX_SIZE := of_decide_eq_true hv.1
    obtain ⟨t, ht⟩ := hpre
    by_cases hshort : q.length < 3
    · exact parse_short _ _ _ _ (by simp [List.length_append]; omega)
    · have hqlen := prefix_ne_length_lt t ht hne
      rw [encode_Array] at hqlen
      simp [List.length_append] at hqlen
      obtain ⟨m, q', rfl⟩ : ∃ m q', q = m :: q' := by
        cases q with
        | nil => exact absurd (by simp : (List.nil : List Nat).length < 3) hshort
        | cons m q' => exact ⟨m, q', rfl⟩
      rw [encode_Array] at ht
      simp only [List.cons_append, List.cons.injEq] at ht
      obtain ⟨rfl, ht2⟩ := ht
      simp only [List.length_cons] at hqlen
      by_cases hz : q'.length ≤ (natToDigitBytes xs.length).length + 1
      · have hq' : q' = (natToDigitBytes xs.length ++ [13]).take q'.length := by
          conv_lhs => rw [eq_take_of_append_eq ht2]
          rw [show natToDigitBytes xs.length ++ [13, 10] ++ encodeList xs =
            (natToDigitBytes xs.length ++ [13]) ++ (10 :: encodeList xs) by simp]
          exact take_append_of_le q'.length (natToDigitBytes xs.length ++ [13])
            (10 :: encodeList xs) (by simp; omega)
        have hnc : noCRLF q' = true := by
          rw [hq']
          exact noCRLF_take _ (noCRLF_append_cr _ (noCRLF_natToDigitBytes _)) q'.length
        exact parse_line_partial fuel pre q' 42 false (by omega) hnc
      · have hz2 : (natToDigitBytes xs.length ++ ([13, 10] : List Nat)).length ≤ q'.length := by
          simp
          omega
        have hq' : q' = (natToDigitBytes xs.length ++ [13, 10]) ++
            (encodeList xs).take (q'.length - (natToDigitBytes xs.length ++ [13, 10]).length) := by
          conv_lhs => rw [eq_take_of_append_eq ht2]
          rw [show natToDigitBytes xs.length ++ [13, 10] ++ encodeList xs =
            (natToDigitBytes xs.length ++ [13, 10]) ++ encodeList xs by simp]
          exact take_append_ge q'.length (natToDigitBytes xs.length ++ [13, 10]) (encodeList xs) hz2
        have hustrict : ((encodeList xs).take
            (q'.length - (natToDigitBytes xs.length ++ [13, 10]).length)).length <
            (encodeList xs).length := by
          rw [List.length_take]
          simp only [List.length_append, List.length_cons, List.length_nil] at hqlen ⊢
          omega
        rw [hq']
        cases fuel with
        | zero => rfl
        | succ f =>
          have h := parse_star_header f pre
            ((encodeList xs).take (q'.length - (natToDigitBytes xs.length ++ [13, 10]).length))
            xs.length false hcount
          simp only [List.append_assoc, List.cons_append, List.nil_append] at h ⊢
          rw [h]
          have hm := parseMany_partial xs hv.2 f
            (pre ++ 42 :: (natToDigitBytes xs.length ++ [13, 10]))
            ((encodeList xs).take (q'.length - (natToDigitBytes xs.length ++ [13, 10]).length))
            (pre.length + 1 + (natToDigitBytes xs.length).length + 2)
            (by simp [List.length_append]; omega)
            (List.take_prefix _ _)
            (by intro hcontra; rw [hcontra] at hustrict; omega)
          simp only [List.append_assoc, List.cons_append, List.nil_append] at hm
          rw [hm]
theorem parseMany_partial : ∀ (xs : List Value), TrippableList xs = true →
    ∀ (fuel : Nat) (pre q : List Nat) (off : Nat), off = pre.length →
    q <+: encodeList xs → q ≠ encodeList xs →
    parseManyValues fuel (pre ++ q) false xs.length off = none
  | [], _, fuel, pre, q, off, hoff, hpre, hne => by
    exfalso
    rw [encodeList_nil] at hpre hne
    exact hne (List.prefix_nil.mp hpre)
  | x :: xs, hxxs, fuel, pre, q, off, hoff, hpre, hne => by
    obtain ⟨hx, hxs⟩ := TrippableList_cons hxxs
    cases fuel with
    | zero => rfl
    | succ f =>
      obtain ⟨t, ht⟩ := hpre
      rw [encodeList_cons] at ht hne
      by_cases hcmp : q.length < (encode x).length
      · have hq : q = (encode x).take q.length := by
          conv_lhs => rw [eq_take_of_append_eq ht]
          exact take_append_of_le q.length (encode x) (encodeList xs) (by omega)
        have hr := parse_partial x hx f pre q off hoff
          (hq ▸ List.take_prefix q.length (encode x))
          (by intro hcontra; rw [hcontra] at hcmp; omega)
        simp only [List.length_cons, parseManyValues, hr]
      · have hq : q = encode x ++ (encodeList xs).take (q.length - (encode x).length) := by
          conv_lhs => rw [eq_take_of_append_eq ht]
          exact take_append_ge q.length (encode x) (encodeList xs) (by omega)
        have hq2strict : (encodeList xs).take (q.length - (encode x).length) ≠ encodeList xs := by
          intro hcontra
          apply hne
          rw [hq, hcontra]
        rw [hq]
        rcases parse_encode_main x hx f pre
            ((encodeList xs).take (q.length - (encode x).length)) off hoff with hr | ⟨hr, _⟩
        · have hm := parseMany_partial xs hxs f (pre ++ encode x)
            ((encodeList xs).take (q.length - (encode x).length))
            (off + (encode x).length) (by simp [List.length_append]; omega)
            (List.take_prefix _ _) hq2strict
          simp only [List.append_assoc] at hr hm ⊢
          simp only [List.length_cons, parseManyValues, hr, hm]
        · simp only [List.append_assoc] at hr ⊢
          simp only [List.length_cons, parseManyValues, hr]
end

/-! ## Decoder-level lemmas -/

theorem parse_nil_none (fuel : Nat) (bb : Bool) : parseOneValue fuel [] 0 bb = none := by
  cases fuel with
  | zero => rfl
  | succ f => simp [parseOneValue]

/-- the slice `buf[pos..]` still pending in front of the unconsumed values
`ws`: either everything has been consumed, or the slice is a strict prefix of
the next value's encoding. -/
def Pending (q : List Nat) (ws : List Value) : Prop :=
  (ws = [] ∧ q = []) ∨ ∃ w ws2, ws = w :: ws2 ∧ q <+: encode w ∧ q ≠ encode w

theorem Pending_nil (ws : List Value) : Pending [] ws := by
  cases ws with
  | nil => exact Or.inl ⟨rfl, rfl⟩
  | cons w ws2 =>
    exact Or.inr ⟨w, ws2, rfl, ⟨encode w, by simp⟩, fun h => encode_ne_nil w h.symm⟩

theorem Pending_stuck {q : List Nat} {ws : List Value} (hp : Pending q ws)
    (hws : TrippableList ws = true) (fuel : Nat) :
    parseOneValue fuel q 0 false = none := by
  rcases hp with ⟨_, rfl⟩ | ⟨w, ws2, rfl, hpre, hne⟩
  · exact parse_nil_none fuel false
  · have h := parse_partial w (TrippableList_cons hws).1 fuel [] q 0 rfl hpre hne
    simpa using h

theorem length_le_encodeList_length : ∀ (ws : List Value), ws.length ≤ (encodeList ws).length
  | [] => by simp [encodeList_nil]
  | w :: ws => by
    have h1 := three_le_encode_length w
    have h2 := length_le_encodeList_length ws
    rw [encodeList_cons]
    simp only [List.length_cons, List.length_append]
    omega

theorem parseLoop_run : ∀ (ws : List Value) (fuel : Nat) (d : Decoder) (q : List Nat),
    TrippableList ws = true → d.buf_bulk = false →
    d.buf.drop d.pos = encodeList ws ++ q → d.pos ≤ d.buf.length →
    (∀ f, parseOneValue f q 0 false = none) → ws.length < fuel →
    ∃ d2 : Decoder, parseLoop fuel d = (d2, none) ∧ d2.buf_bulk = false ∧
      d2.res = d.res ++ ws ∧ d2.buf.drop d2.pos = q ∧ d2.pos ≤ d2.buf.length
  | [], fuel, d, q, _, hbb, hdrop, hpos, hstuck, hfuel => by
    rw [encodeList_nil, List.nil_append] at hdrop
    cases fuel with
    | zero => omega
    | succ f =>
      refine ⟨d, ?_, hbb, by simp, hdrop, hpos⟩
      simp only [parseLoop, hdrop, hbb, hstuck]
  | w :: ws, fuel, d, q, hws, hbb, hdrop, hpos, hstuck, hfuel => by
    obtain ⟨hw, hws2⟩ := TrippableList_cons hws
    cases fuel with
    | zero => simp at hfuel
    | succ f =>
      rw [encodeList_cons, List.append_assoc] at hdrop
      have hlens := congrArg List.length hdrop
      simp only [List.length_append] at hlens
      have hres := parse_encode w hw ((d.buf.drop d.pos).length + 1) [] (encodeList ws ++ q) 0 rfl
        (by
          have h1 := fneed_le_encode_length w
          omega)
      rw [List.nil_append, ← hdrop] at hres
      simp only [Nat.zero_add] at hres
      have hppos : d.pos + (encode w).length ≤ d.buf.length := by
        have := List.length_drop d.pos d.buf
        omega
      have hstep : parseLoop (f + 1) d =
          parseLoop f (Decoder.prune_buf ⟨false, d.pos + (encode w).length, d.buf,
            d.res ++ [w]⟩) := by
        simp only [parseLoop, hres, hbb]
      set d1 : Decoder :=
        Decoder.prune_buf ⟨false, d.pos + (encode w).length, d.buf, d.res ++ [w]⟩ with hd1
      have hd1eq : d1 = if d.pos + (encode w).length = d.buf.length then
          (⟨false, 0, [], d.res ++ [w]⟩ : Decoder)
          else (⟨false, d.pos + (encode w).length, d.buf, d.res ++ [w]⟩ : Decoder) := rfl
      have hfacts : d1.buf.drop d1.pos = encodeList ws ++ q ∧ d1.pos ≤ d1.buf.length ∧
          d1.buf_bulk = false ∧ d1.res = d.res ++ [w] := by
        by_cases hp : d.pos + (encode w).length = d.buf.length
        · have hd1c : d1 = ⟨false, 0, [], d.res ++ [w]⟩ := by rw [hd1eq, if_pos hp]
          have hrest : (encodeList ws ++ q).length = 0 := by
            simp only [List.length_append]
            have := List.length_drop d.pos d.buf
            omega
          have hnil : encodeList ws ++ q = [] := List.eq_nil_of_length_eq_zero hrest
          rw [hd1c, hnil]
          simp
        · have hd1c : d1 = ⟨false, d.pos + (encode w).length, d.buf, d.res ++ [w]⟩ := by
            rw [hd1eq, if_neg hp]
          rw [hd1c]
          refine ⟨?_, by simp; omega, rfl, rfl⟩
          show d.buf.drop (d.pos + (encode w).length) = encodeList ws ++ q
          rw [← List.drop_drop, hdrop]
          exact drop_len_append (encode w) (encodeList ws ++ q)
      obtain ⟨hdrop2, hpos2, hbb2, hres2⟩ := hfacts
      obtain ⟨d2, hloop, h2bb, h2res, h2drop, h2pos⟩ :=
        parseLoop_run ws f d1 q hws2 hbb2 hdrop2 hpos2 hstuck (by simp at hfuel; omega)
      refine ⟨d2, ?_, h2bb, ?_, h2drop, h2pos⟩
      · rw [hstep, hloop]
      · rw [h2res, hres2]
        simp

theorem parseLoop_error : ∀ (fuel : Nat) (d d2 : Decoder) (e : ErrorMessage),
    parseLoop fuel d = (d2, some e) →
    d2.buf = [] ∧ d2.pos = 0 ∧ d2.buf_bulk = d.buf_bulk ∧ ∃ t, d2.res = d.res ++ t
  | 0, d, d2, e, h => by simp [parseLoop] at h
  | fuel + 1, d, d2, e, h => by
    cases hx : parseOneValue ((d.buf.drop d.pos).length + 1) (d.buf.drop d.pos) 0 d.buf_bulk with
    | none => simp only [parseLoop, hx] at h; simp at h
    | some r =>
      cases r with
      | Res v pos =>
        simp only [parseLoop, hx] at h
        obtain ⟨hb, hp, hbb, t, hres⟩ := parseLoop_error fuel _ d2 e h
        refine ⟨hb, hp, ?_, [v] ++ t, ?_⟩
        · rw [hbb]
          unfold Decoder.prune_buf
          by_cases hc : (⟨d.buf_bulk, d.pos + pos, d.buf, d.res ++ [v]⟩ : Decoder).pos =
              (⟨d.buf_bulk, d.pos + pos, d.buf, d.res ++ [v]⟩ : Decoder).buf.length
          · rw [if_pos hc]
          · rw [if_neg hc]
        · rw [hres]
          have : (Decoder.prune_buf ⟨d.buf_bulk, d.pos + pos, d.buf, d.res ++ [v]⟩).res =
              d.res ++ [v] := by
            unfold Decoder.prune_buf
            by_cases hc : (⟨d.buf_bulk, d.pos + pos, d.buf, d.res ++ [v]⟩ : Decoder).pos =
                (⟨d.buf_bulk, d.pos + pos, d.buf, d.res ++ [v]⟩ : Decoder).buf.length
            · rw [if_pos hc]
            · rw [if_neg hc]
          rw [this, List.append_assoc]
      | Err m =>
        simp only [parseLoop, hx] at h
        have hd2 : d2 = Decoder.prune_buf ⟨d.buf_bulk, d.buf.length, d.buf, d.res⟩ := by
          have := congrArg Prod.fst h
          simpa using this.symm
        have hclean : Decoder.prune_buf ⟨d.buf_bulk, d.buf.length, d.buf, d.res⟩ =
            ⟨d.buf_bulk, 0, [], d.res⟩ := by
          unfold Decoder.prune_buf
          rw [if_pos rfl]
        rw [hd2, hclean]
        exact ⟨rfl, rfl, rfl, [], by simp⟩

theorem parseLoop_buf_bulk : ∀ (fuel : Nat) (d : Decoder),
    (parseLoop fuel d).1.buf_bulk = d.buf_bulk
  | 0, d => rfl
  | fuel + 1, d => by
    cases hx : parseOneValue ((d.buf.drop d.pos).length + 1) (d.buf.drop d.pos) 0 d.buf_bulk with
    | none => simp only [parseLoop, hx]
    | some r =>
      cases r with
      | Res v pos =>
        simp only [parseLoop, hx]
        rw [parseLoop_buf_bulk fuel _]
        unfold Decoder.prune_buf
        by_cases hc : (⟨d.buf_bulk, d.pos + pos, d.buf, d.res ++ [v]⟩ : Decoder).pos =
            (⟨d.buf_bulk, d.pos + pos, d.buf, d.res ++ [v]⟩ : Decoder).buf.length
        · rw [if_pos hc]
        · rw [if_neg hc]
      | Err m =>
        simp only [parseLoop, hx]
        unfold Decoder.prune_buf
        rw [if_pos rfl]

theorem feed_buf_bulk (d : Decoder) (bs : List Nat) : (d.feed bs).1.buf_bulk = d.buf_bulk := by
  unfold Decoder.feed
  rw [parseLoop_buf_bulk]

theorem feed_error_state (d : Decoder) (bs : List Nat) (d2 : Decoder) (e : ErrorMessage)
    (h : d.feed bs = (d2, some e)) :
    d2.buf = [] ∧ d2.pos = 0 ∧ d2.buf_bulk = d.buf_bulk ∧ ∃ t, d2.res = d.res ++ t := by
  unfold Decoder.feed at h
  have := parseLoop_error _ _ _ _ h
  simpa using this

/-- feeding the complete encoding of one trippable value to a decoder with an
empty buffer parses exactly that value. -/
theorem feed_clean_encode (d : Decoder) (v : Value) (hv : Trippable v = true)
    (hbb : d.buf_bulk = false) (hbuf : d.buf = []) (hpos : d.pos = 0) :
    ∃ d2 : Decoder, d.feed (encode v) = (d2, none) ∧ d2.res = d.res ++ [v] ∧
      d2.buf_bulk = false ∧ d2.buf.drop d2.pos = [] ∧ d2.pos ≤ d2.buf.length := by
  obtain ⟨bb, p, b, r⟩ := d
  simp only at hbb hbuf hpos
  subst hbb
  subst hbuf
  subst hpos
  unfold Decoder.feed
  obtain ⟨d2, hloop, h2bb, h2res, h2drop, h2pos⟩ :=
    parseLoop_run [v] (([] ++ encode v).length + 1) ⟨false, 0, [] ++ encode v, r⟩ []
    (by
      show (Trippable v && TrippableList []) = true
      simp [hv]
      rfl)
    rfl
    (by simp [encodeList_cons, encodeList_nil])
    (by simp)
    (fun f => parse_nil_none f false)
    (by
      have h3 := three_le_encode_length v
      simp only [List.nil_append, List.length_cons, List.length_nil]
      omega)
  exact ⟨d2, hloop, h2res, h2bb, h2drop, h2pos⟩

/-- every prefix of a concatenation of encodings splits into a run of whole
encodings followed by a pending strict prefix. -/
theorem split_prefix_encodeList : ∀ (ws : List Value) (p : List Nat), p <+: encodeList ws →
    ∃ ws1 ws2 q, ws = ws1 ++ ws2 ∧ p = encodeList ws1 ++ q ∧ Pending q ws2
  | [], p, hp => by
    rw [encodeList_nil] at hp
    have : p = [] := List.prefix_nil.mp hp
    exact ⟨[], [], [], rfl, by simp [this, encodeList_nil], Or.inl ⟨rfl, rfl⟩⟩
  | w :: ws, p, hp => by
    rw [encodeList_cons] at hp
    obtain ⟨t, ht⟩ := hp
    by_cases hcmp : p.length < (encode w).length
    · have hq : p = (encode w).take p.length := by
        conv_lhs => rw [eq_take_of_append_eq ht]
        exact take_append_of_le p.length (encode w) (encodeList ws) (by omega)
      refine ⟨[], w :: ws, p, rfl, by simp [encodeList_nil], Or.inr ⟨w, ws, rfl, ?_, ?_⟩⟩
      · exact hq ▸ List.take_prefix p.length (encode w)
      · intro hcontra
        rw [hcontra] at hcmp
        omega
    · have hq : p = encode w ++ (encodeList ws).take (p.length - (encode w).length) := by
        conv_lhs => rw [eq_take_of_append_eq ht]
        exact take_append_ge p.length (encode w) (encodeList ws) (by omega)
      obtain ⟨ws1, ws2, q, hws, hp2, hpend⟩ :=
        split_prefix_encodeList ws ((encodeList ws).take (p.length - (encode w).length))
          (List.take_prefix _ _)
      refine ⟨w :: ws1, ws2, q, by rw [hws]; rfl, ?_, hpend⟩
      rw [hq, hp2, encodeList_cons, List.append_assoc]

/-- effect of one `feed` call while streaming a sequence of encoded values. -/
theorem feed_chunk (d : Decoder) (c : List Nat) (ws : List Value) (q : List Nat)
    (hbb : d.buf_bulk = false) (hws : TrippableList ws = true)
    (hdrop : d.buf.drop d.pos = q) (hpos : d.pos ≤ d.buf.length)
    (hpre : q ++ c <+: encodeList ws) :
    ∃ d2 ws1 ws2 q2, d.feed c = (d2, none) ∧ ws = ws1 ++ ws2 ∧
      q ++ c = encodeList ws1 ++ q2 ∧ d2.buf_bulk = false ∧ d2.res = d.res ++ ws1 ∧
      d2.buf.drop d2.pos = q2 ∧ d2.pos ≤ d2.buf.length ∧ Pending q2 ws2 ∧
      TrippableList ws2 = true := by
  obtain ⟨ws1, ws2, q2, hsplit, hdecomp, hpend⟩ := split_prefix_encodeList ws (q ++ c) hpre
  have htl := TrippableList_append (hsplit ▸ hws)
  have hslice : (d.buf ++ c).drop d.pos = encodeList ws1 ++ q2 := by
    rw [drop_append_of_le d.pos d.buf c hpos, hdrop, hdecomp]
  have hstuck : ∀ f, parseOneValue f q2 0 false = none :=
    fun f => Pending_stuck hpend htl.2 f
  have hfuel : ws1.length < (d.buf ++ c).length + 1 := by
    have h1 := length_le_encodeList_length ws1
    have h2 := congrArg List.length hslice
    simp only [List.length_drop, List.length_append] at h2 ⊢
    omega
  obtain ⟨d2, hloop, h2bb, h2res, h2drop, h2pos⟩ :=
    parseLoop_run ws1 ((d.buf ++ c).length + 1) ⟨d.buf_bulk, d.pos, d.buf ++ c, d.res⟩ q2
      htl.1 (by simpa using hbb) (by simpa using hslice)
      (by show d.pos ≤ (d.buf ++ c).length; simp only [List.length_append]; omega) hstuck hfuel
  have hfeed : d.feed c = (d2, none) := by
    unfold Decoder.feed
    exact hloop
  exact ⟨d2, ws1, ws2, q2, hfeed, hsplit, hdecomp, h2bb, h2res, h2drop, h2pos, hpend, htl.2⟩

/-- feeding any chunking of a stream of encoded values: every `feed`
returns `Ok` and the parsed values accumulate in stream order. -/
theorem feedChunks_run : ∀ (chunks : List (List Nat)) (d : Decoder) (ws : List Value)
    (q : List Nat), d.buf_bulk = false → TrippableList ws = true →
    d.buf.drop d.pos = q → d.pos ≤ d.buf.length → Pending q ws →
    q ++ chunks.join = encodeList ws →
    ∃ d2 : Decoder, feedChunks d chunks = (d2, true) ∧ d2.res = d.res ++ ws
  | [], d, ws, q, _, hws, _, _, hpend, hjoin => by
    simp only [List.join_nil, List.append_nil] at hjoin
    rcases hpend with ⟨hws0, hq0⟩ | ⟨w, ws2, hcons, hpre, hne⟩
    · subst hws0
      rw [encodeList_nil] at hjoin
      exact ⟨d, rfl, by simp⟩
    · exfalso
      obtain ⟨t, ht⟩ := hpre
      have hlt := prefix_ne_length_lt t ht hne
      have := congrArg List.length hjoin
      rw [hcons, encodeList_cons] at this
      simp only [List.length_append] at this
      omega
  | c :: cs, d, ws, q, hbb, hws, hdrop, hpos, hpend, hjoin => by
    have hpre : q ++ c <+: encodeList ws := by
      refine ⟨cs.join, ?_⟩
      rw [← hjoin]
      simp [List.join]
    obtain ⟨d2, ws1, ws2, q2, hfeed, hsplit, hdecomp, h2bb, h2res, h2drop, h2pos, h2pend, h2tl⟩ :=
      feed_chunk d c ws q hbb hws hdrop hpos hpre
    have hjoin2 : q2 ++ cs.join = encodeList ws2 := by
      have h1 : (encodeList ws1 ++ q2) ++ cs.join = encodeList ws1 ++ encodeList ws2 := by
        rw [← hdecomp, ← encodeList_append, ← hsplit, ← hjoin]
        simp [List.join]
      rw [List.append_assoc] at h1
      exact List.append_cancel_left h1
    obtain ⟨d3, hrest, h3res⟩ := feedChunks_run cs d2 ws2 q2 h2bb h2tl h2drop h2pos h2pend hjoin2
    refine ⟨d3, ?_, ?_⟩
    · simp only [feedChunks, hfeed, hrest, Option.isNone_none, Bool.true_and]
    · rw [h3res, h2res, hsplit, List.append_assoc]

/-! ## Auxiliary feed-level lemmas for the claims -/

theorem encodeList_eq_flatten : ∀ (xs : List Value), encodeList xs = (xs.map encode).flatten
  | [] => rfl
  | x :: xs => by
    rw [encodeList_cons, encodeList_eq_flatten xs]
    rfl

theorem read_buf_bulk (d : Decoder) : (d.read).2.buf_bulk = d.buf_bulk := by
  obtain ⟨bb, p, b, r⟩ := d
  cases r <;> rfl

theorem feed_new_err (bs : List Nat) (m : ErrorMessage)
    (h : ∀ f : Nat, parseOneValue (f + 1) bs 0 false = some (.Err m)) :
    Decoder.new.feed bs = (⟨false, 0, [], []⟩, some m) := by
  simp only [Decoder.feed, Decoder.new, List.nil_append]
  simp only [parseLoop, List.drop_zero, h bs.length]
  unfold Decoder.prune_buf
  rw [if_pos rfl]

theorem feed_partial_clean (d : Decoder) (v : Value) (q : List Nat) (hv : Trippable v = true)
    (hpre : q <+: encode v) (hne : q ≠ encode v) (hbb : d.buf_bulk = false)
    (hbuf : d.buf = []) (hpos : d.pos = 0) :
    d.feed q = (⟨false, 0, q, d.res⟩, none) := by
  obtain ⟨bb, p, b, r⟩ := d
  simp only at hbb hbuf hpos
  subst hbb
  subst hbuf
  subst hpos
  unfold Decoder.feed
  simp only [List.nil_append]
  have hx : parseOneValue (q.length + 1) q 0 false = none := by
    have := parse_partial v hv (q.length + 1) [] q 0 rfl hpre hne
    simpa using this
  simp only [parseLoop, List.drop_zero, hx]

/-! ## The claims -/

/-- Claim C1, counterexample to the stated scope: the value
`BufBulk [79, 75]` carries valid UTF-8 bytes, so the claim quantifies over
it, yet a text-mode decoder materializes the re-decoded payload as
`Bulk [79, 75]`, which is not structurally equal to the original value. -/
theorem C1_counterexample :
    utf8Valid [79, 75] = true ∧
    Value.BufBulk [79, 75] ≠ Value.Bulk [79, 75] ∧
    Decoder.new.feed (encode (.BufBulk [79, 75])) =
      (⟨false, 0, [], [.Bulk [79, 75]]⟩, none) := by
  exact ⟨by decide, by decide, by decide⟩

/-- Claim C1 (amended): for every value in the round-trip class `Trippable`
(no `BufBulk` at all, text payloads valid UTF-8 without embedded CR LF,
integers in the i64 range, bulk lengths and array counts below
`RESP_MAX_SIZE`), feeding `encode v` to a fresh text-mode decoder succeeds
and a single `read` returns a value structurally equal to `v`. -/
theorem C1_round_trip (v : Value) (hv : Trippable v = true) :
    ∃ d2 : Decoder, Decoder.new.feed (encode v) = (d2, none) ∧ (d2.read).1 = some v := by
  obtain ⟨d2, hfeed, hres, _, _, _⟩ := feed_clean_encode Decoder.new v hv rfl rfl rfl
  refine ⟨d2, hfeed, ?_⟩
  have hres2 : d2.res = [v] := by simpa [Decoder.new] using hres
  simp [Decoder.read, hres2]

/-- Claim C1 witness: the round trip at the concrete value `Str "OK"`. -/
theorem C1_round_trip_witness :
    Trippable (.Str [79, 75]) = true ∧
    ∃ d2 : Decoder, Decoder.new.feed (encode (.Str [79, 75])) = (d2, none) ∧
      (d2.read).1 = some (.Str [79, 75]) :=
  ⟨by decide, C1_round_trip (.Str [79, 75]) (by decide)⟩

/-- Claim C2, counterexample to the stated scope: the claim quantifies over
all values, but for the stream of the two constructible values
`Str "\x0d\x0ab"` (a simple string with an embedded CR LF) and `Null`, the
one-call feed and the byte-at-a-time feeds leave different readable queues:
the line scanner stops at the embedded CR LF, the byte 98 then heads a
malformed element, and the one-call feed discards the trailing bytes of the
`Null` element together with the malformed one, while the byte-at-a-time
feeds deliver those trailing bytes after the erroring call, so the `Null`
survives. -/
theorem C2_counterexample :
    encodeList [.Str [13, 10, 98], .Null] = [43, 13, 10, 98, 13, 10, 36, 45, 49, 13, 10] ∧
    (Decoder.new.feed [43, 13, 10, 98, 13, 10, 36, 45, 49, 13, 10]).1.res = [.Str []] ∧
    (feedChunks Decoder.new
        ([43, 13, 10, 98, 13, 10, 36, 45, 49, 13, 10].map (fun b => [b]))).1.res =
      [.Str [], .Null] ∧
    ([Value.Str []] : List Value) ≠ [.Str [], .Null] := by
  refine ⟨by decide, by decide, ?_, by decide⟩
  have h1 : Decoder.new.feed [43] = (⟨false, 0, [43], []⟩, none) := by decide
  have h2 : (⟨false, 0, [43], []⟩ : Decoder).feed [13] =
      (⟨false, 0, [43, 13], []⟩, none) := by decide
  have h3 : (⟨false, 0, [43, 13], []⟩ : Decoder).feed [10] =
      (⟨false, 0, [], [.Str []]⟩, none) := by decide
  have h4 : (⟨false, 0, [], [.Str []]⟩ : Decoder).feed [98] =
      (⟨false, 0, [98], [.Str []]⟩, none) := by decide
  have h5 : (⟨false, 0, [98], [.Str []]⟩ : Decoder).feed [13] =
      (⟨false, 0, [98, 13], [.Str []]⟩, none) := by decide
  have h6 : (⟨false, 0, [98, 13], [.Str []]⟩ : Decoder).feed [10] =
      (⟨false, 0, [], [.Str []]⟩, some .ParseInvalid) := by decide
  have h7 : (⟨false, 0, [], [.Str []]⟩ : Decoder).feed [36] =
      (⟨false, 0, [36], [.Str []]⟩, none) := by decide
  have h8 : (⟨false, 0, [36], [.Str []]⟩ : Decoder).feed [45] =
      (⟨false, 0, [36, 45], [.Str []]⟩, none) := by decide
  have h9 : (⟨false, 0, [36, 45], [.Str []]⟩ : Decoder).feed [49] =
      (⟨false, 0, [36, 45, 49], [.Str []]⟩, none) := by decide
  have h10 : (⟨false, 0, [36, 45, 49], [.Str []]⟩ : Decoder).feed [13] =
      (⟨false, 0, [36, 45, 49, 13], [.Str []]⟩, none) := by decide
  have h11 : (⟨false, 0, [36, 45, 49, 13], [.Str []]⟩ : Decoder).feed [10] =
      (⟨false, 0, [], [.Str [], .Null]⟩, none) := by decide
  simp only [List.map, feedChunks, h1, h2, h3, h4, h5, h6, h7, h8, h9, h10, h11]

/-- Claim C2 (amended): for every stream of values in the round-trip class
and every chunking of the concatenation of their encodings, feeding the
chunks one `feed` call at a time to a fresh text-mode decoder returns `Ok`
on every call and leaves exactly the streamed values queued in their order
of appearance in the byte stream; in particular the one-call feed and the
byte-at-a-time feeds agree. -/
theorem C2_chunk_independence (ws : List Value) (chunks : List (List Nat))
    (hws : TrippableList ws = true) (hj : chunks.flatten = encodeList ws) :
    ∃ d2 : Decoder, feedChunks Decoder.new chunks = (d2, true) ∧ d2.res = ws := by
  obtain ⟨d2, h1, h2⟩ := feedChunks_run chunks Decoder.new ws [] rfl hws rfl (by decide)
    (Pending_nil ws) (by simpa using hj)
  exact ⟨d2, h1, by simpa using h2⟩

/-- Claim C2 witness: the stream `Str "OK", Null` fed one byte at a time. -/
theorem C2_chunk_independence_witness :
    TrippableList [.Str [79, 75], .Null] = true ∧
    ([43, 79, 75, 13, 10, 36, 45, 49, 13, 10].map (fun b => [b])).flatten =
      encodeList [.Str [79, 75], .Null] ∧
    ∃ d2 : Decoder,
      feedChunks Decoder.new ([43, 79, 75, 13, 10, 36, 45, 49, 13, 10].map (fun b => [b])) =
        (d2, true) ∧ d2.res = [.Str [79, 75], .Null] :=
  ⟨by decide, by decide,
    C2_chunk_independence [.Str [79, 75], .Null]
      ([43, 79, 75, 13, 10, 36, 45, 49, 13, 10].map (fun b => [b])) (by decide) (by decide)⟩

/-- Claim C3: a complete length or count header declaring a value outside
[-1, 512*1024*1024) makes `feed` report `ParseBulk` (for a dollar frame)
or `ParseArray` (for a star frame) immediately, with no payload byte
present; a declared -1 instead yields `Null` or `NullArray`, consuming
exactly the five header bytes. -/
theorem C3_bound_enforcement (k : Int) (hk : k < -1 ∨ RESP_MAX_SIZE ≤ k) :
    Decoder.new.feed (36 :: (intToBytes k ++ [13, 10])) =
      (⟨false, 0, [], []⟩, some .ParseBulk) ∧
    Decoder.new.feed (42 :: (intToBytes k ++ [13, 10])) =
      (⟨false, 0, [], []⟩, some .ParseArray) ∧
    Decoder.new.feed [36, 45, 49, 13, 10] = (⟨false, 0, [], [.Null]⟩, none) ∧
    Decoder.new.feed [42, 45, 49, 13, 10] = (⟨false, 0, [], [.NullArray]⟩, none) := by
  refine ⟨?_, ?_, by decide, by decide⟩
  · exact feed_new_err _ _
      (fun f => by simpa using parse_dollar_bad f [] [] k false hk)
  · exact feed_new_err _ _
      (fun f => by simpa using parse_star_bad f [] [] k false hk)

/-- Claim C3 witness: the boundary length 536870912 = 512*1024*1024. -/
theorem C3_bound_enforcement_witness :
    ((536870912 : Int) < -1 ∨ RESP_MAX_SIZE ≤ 536870912) ∧
    (Decoder.new.feed (36 :: (intToBytes 536870912 ++ [13, 10])) =
        (⟨false, 0, [], []⟩, some .ParseBulk) ∧
      Decoder.new.feed (42 :: (intToBytes 536870912 ++ [13, 10])) =
        (⟨false, 0, [], []⟩, some .ParseArray) ∧
      Decoder.new.feed [36, 45, 49, 13, 10] = (⟨false, 0, [], [.Null]⟩, none) ∧
      Decoder.new.feed [42, 45, 49, 13, 10] = (⟨false, 0, [], [.NullArray]⟩, none)) :=
  ⟨by decide, C3_bound_enforcement 536870912 (by decide)⟩

/-- Claim C4: a decoder whose last `feed` reported a protocol error is not
permanently failed: a subsequent `feed` of the well-formed bytes
36 45 49 13 10 (a null bulk header) succeeds, queues `Null`, and when no
values were pending `read` returns that `Null`. -/
theorem C4_error_recovery (d : Decoder) (bs : List Nat) (d2 : Decoder) (e : ErrorMessage)
    (hbb : d.buf_bulk = false) (h : d.feed bs = (d2, some e)) :
    ∃ d3 : Decoder, d2.feed [36, 45, 49, 13, 10] = (d3, none) ∧
      d3.res = d2.res ++ [.Null] ∧ (d2.res = [] → (d3.read).1 = some .Null) := by
  obtain ⟨hb, hp, hbb2, _⟩ := feed_error_state d bs d2 e h
  obtain ⟨d3, hfeed, hres, _, _, _⟩ :=
    feed_clean_encode d2 .Null (by decide) (hbb2.trans hbb) hb hp
  refine ⟨d3, hfeed, hres, ?_⟩
  intro h0
  have hres2 : d3.res = [.Null] := by rw [hres, h0]; rfl
  simp [Decoder.read, hres2]

/-- Claim C4 witness: the erroring feed of 38 45 49 13 10 (marker 38, the
ampersand) followed by the recovering feed of the null bulk header. -/
theorem C4_error_recovery_witness :
    Decoder.new.buf_bulk = false ∧
    Decoder.new.feed [38, 45, 49, 13, 10] = (⟨false, 0, [], []⟩, some .ParseInvalid) ∧
    ∃ d3 : Decoder, (⟨false, 0, [], []⟩ : Decoder).feed [36, 45, 49, 13, 10] = (d3, none) ∧
      d3.res = (⟨false, 0, [], []⟩ : Decoder).res ++ [.Null] ∧
      ((⟨false, 0, [], []⟩ : Decoder).res = [] → (d3.read).1 = some .Null) :=
  ⟨rfl, by decide,
    C4_error_recovery Decoder.new [38, 45, 49, 13, 10] ⟨false, 0, [], []⟩ .ParseInvalid rfl
      (by decide)⟩

/-- Claim C5, counterexample to the stated discard scope: feeding a
malformed element (38 122 13 10) followed by a complete well-formed null
bulk (36 45 49 13 10) in one call leaves an empty buffer — the well-formed
bytes lying after the malformed element are discarded too, not retained —
and feeding a complete simple string followed by the malformed element
leaves `Str "OK"`, parsed during the same failed call, still queued rather
than discarded. -/
theorem C5_counterexample :
    Decoder.new.feed [38, 122, 13, 10, 36, 45, 49, 13, 10] =
      (⟨false, 0, [], []⟩, some .ParseInvalid) ∧
    Decoder.new.feed [43, 79, 75, 13, 10, 38, 122, 13, 10] =
      (⟨false, 0, [], [.Str [79, 75]]⟩, some .ParseInvalid) := by
  exact ⟨by decide, by decide⟩

/-- Claim C5 (amended): when a `feed` call detects a protocol error it
discards the entire buffer — every unconsumed byte, including any bytes
lying after the malformed element — while the queue of parsed values,
including the values parsed earlier within that same call, is retained. -/
theorem C5_error_discard (d : Decoder) (bs : List Nat) (d2 : Decoder) (e : ErrorMessage)
    (h : d.feed bs = (d2, some e)) :
    d2.buffer_len = 0 ∧ d2.pos = 0 ∧ ∃ t, d2.res = d.res ++ t := by
  obtain ⟨hb, hp, _, ht⟩ := feed_error_state d bs d2 e h
  exact ⟨by simp [Decoder.buffer_len, hb], hp, ht⟩

/-- Claim C5 witness: the erroring feed of a simple string followed by a
malformed element. -/
theorem C5_error_discard_witness :
    Decoder.new.feed [43, 79, 75, 13, 10, 38, 122, 13, 10] =
      (⟨false, 0, [], [.Str [79, 75]]⟩, some .ParseInvalid) ∧
    ((⟨false, 0, [], [.Str [79, 75]]⟩ : Decoder).buffer_len = 0 ∧
      (⟨false, 0, [], [.Str [79, 75]]⟩ : Decoder).pos = 0 ∧
      ∃ t, (⟨false, 0, [], [.Str [79, 75]]⟩ : Decoder).res = Decoder.new.res ++ t) :=
  ⟨by decide,
    C5_error_discard Decoder.new [43, 79, 75, 13, 10, 38, 122, 13, 10]
      ⟨false, 0, [], [.Str [79, 75]]⟩ .ParseInvalid (by decide)⟩

/-- Claim C6: feeding any strict prefix of the encoding of a round-trip
value to a decoder with an empty buffer returns `Ok`, queues nothing, and
retains every fed byte unconsumed; concretely the bulk header 36 48 13 10
alone yields no value and a following 13 10 yields exactly the empty
`Bulk`. -/
theorem C6_need_more_data (d : Decoder) (v : Value) (q : List Nat) (hv : Trippable v = true)
    (hpre : q <+: encode v) (hne : q ≠ encode v) (hbb : d.buf_bulk = false)
    (hbuf : d.buf = []) (hpos : d.pos = 0) :
    d.feed q = (⟨false, 0, q, d.res⟩, none) ∧
    Decoder.new.feed [36, 48, 13, 10] = (⟨false, 0, [36, 48, 13, 10], []⟩, none) ∧
    (⟨false, 0, [36, 48, 13, 10], []⟩ : Decoder).feed [13, 10] =
      (⟨false, 0, [], [.Bulk []]⟩, none) := by
  exact ⟨feed_partial_clean d v q hv hpre hne hbb hbuf hpos, by decide, by decide⟩

/-- Claim C6 witness: the strict prefix 36 48 13 10 of the encoding of the
empty `Bulk`. -/
theorem C6_need_more_data_witness :
    Trippable (.Bulk []) = true ∧ [36, 48, 13, 10] <+: encode (.Bulk []) ∧
    [36, 48, 13, 10] ≠ encode (.Bulk []) ∧
    (Decoder.new.feed [36, 48, 13, 10] = (⟨false, 0, [36, 48, 13, 10], Decoder.new.res⟩, none) ∧
      Decoder.new.feed [36, 48, 13, 10] = (⟨false, 0, [36, 48, 13, 10], []⟩, none) ∧
      (⟨false, 0, [36, 48, 13, 10], []⟩ : Decoder).feed [13, 10] =
        (⟨false, 0, [], [.Bulk []]⟩, none)) :=
  ⟨by decide, by decide, by decide,
    C6_need_more_data Decoder.new (.Bulk []) [36, 48, 13, 10] (by decide) (by decide) (by decide)
      rfl rfl rfl⟩

/-- Claim C7: the exact encoder productions — `buf_encode` appends the
encoding to the accumulator, the null encodings are the exact five-byte
headers, every other constructor produces its marker byte, payload and
CR LF framing, an array encodes as its header followed by the child
encodings depth-first in order, and the three-word command produces the
exact documented byte string. -/
theorem C7_encoder_productions :
    (∀ (v : Value) (buf : List Nat), buf_encode v buf = buf ++ encode v) ∧
    encode .Null = [36, 45, 49, 13, 10] ∧
    encode .NullArray = [42, 45, 49, 13, 10] ∧
    (∀ s, encode (.Str s) = 43 :: (s ++ [13, 10])) ∧
    (∀ s, encode (.Error s) = 45 :: (s ++ [13, 10])) ∧
    (∀ n, encode (.Integer n) = 58 :: (intToBytes n ++ [13, 10])) ∧
    (∀ s, encode (.Bulk s) = 36 :: (natToDigitBytes s.length ++ [13, 10] ++ s ++ [13, 10])) ∧
    (∀ b, encode (.BufBulk b) = 36 :: (natToDigitBytes b.length ++ [13, 10] ++ b ++ [13, 10])) ∧
    (∀ xs, encode (.Array xs) = 42 :: (natToDigitBytes xs.length ++ [13, 10] ++ encodeList xs)) ∧
    (∀ xs, encodeList xs = (xs.map encode).flatten) ∧
    encode_slice [[83, 69, 84], [97], [49]] =
      [42, 51, 13, 10, 36, 51, 13, 10, 83, 69, 84, 13, 10,
       36, 49, 13, 10, 97, 13, 10, 36, 49, 13, 10, 49, 13, 10] :=
  ⟨buf_encode_eq, rfl, rfl, encode_Str, encode_Error, encode_Integer, encode_Bulk,
    encode_BufBulk, encode_Array, encodeList_eq_flatten, by decide⟩

/-- Claim C8: the bulk-materialization mode is the construction-time
`buf_bulk` flag, preserved by every `feed` and `read` for the decoder's
whole lifetime; with the flag set, a correctly framed dollar payload of
any content is materialized as `BufBulk` with no validation, while with
the flag clear the payload passes UTF-8 validation and is materialized as
`Bulk`, invalid UTF-8 being reported as the bulk protocol error. -/
theorem C8_mode_fidelity (s : List Nat) (f : Nat) (hL : (s.length : Int) < RESP_MAX_SIZE) :
    (∀ (d : Decoder) (bs : List Nat), (d.feed bs).1.buf_bulk = d.buf_bulk) ∧
    (∀ d : Decoder, (d.read).2.buf_bulk = d.buf_bulk) ∧
    Decoder.with_buf_bulk.buf_bulk = true ∧ Decoder.new.buf_bulk = false ∧
    parseOneValue (f + 1) (36 :: (natToDigitBytes s.length ++ 13 :: 10 :: (s ++ [13, 10])))
      0 true =
      some (.Res (.BufBulk s) (s.length + (1 + (natToDigitBytes s.length).length + 2) + 2)) ∧
    parseOneValue (f + 1) (36 :: (natToDigitBytes s.length ++ 13 :: 10 :: (s ++ [13, 10])))
      0 false =
      (match parseStringBytes s with
       | some t =>
         some (.Res (.Bulk t) (s.length + (1 + (natToDigitBytes s.length).length + 2) + 2))
       | none => some (.Err .ParseBulk)) := by
  refine ⟨feed_buf_bulk, read_buf_bulk, rfl, rfl, ?_, ?_⟩
  · have h := parse_dollar_full f [] s [] true hL
    simpa using h
  · have h := parse_dollar_full f [] s [] false hL
    simpa using h

/-- Claim C8 witness: the two-byte payload 79 75, valid UTF-8. -/
theorem C8_mode_fidelity_witness :
    (([79, 75] : List Nat).length : Int) < RESP_MAX_SIZE ∧
    ((∀ (d : Decoder) (bs : List Nat), (d.feed bs).1.buf_bulk = d.buf_bulk) ∧
      (∀ d : Decoder, (d.read).2.buf_bulk = d.buf_bulk) ∧
      Decoder.with_buf_bulk.buf_bulk = true ∧ Decoder.new.buf_bulk = false ∧
      parseOneValue 1 (36 :: (natToDigitBytes ([79, 75] : List Nat).length ++
          13 :: 10 :: ([79, 75] ++ [13, 10]))) 0 true =
        some (.Res (.BufBulk [79, 75])
          (([79, 75] : List Nat).length +
            (1 + (natToDigitBytes ([79, 75] : List Nat).length).length + 2) + 2)) ∧
      parseOneValue 1 (36 :: (natToDigitBytes ([79, 75] : List Nat).length ++
          13 :: 10 :: ([79, 75] ++ [13, 10]))) 0 false =
        (match parseStringBytes [79, 75] with
         | some t =>
           some (.Res (.Bulk t)
             (([79, 75] : List Nat).length +
               (1 + (natToDigitBytes ([79, 75] : List Nat).length).length + 2) + 2))
         | none => some (.Err .ParseBulk))) :=
  ⟨by decide, C8_mode_fidelity [79, 75] 0 (by decide)⟩

/-- Claim C9, refuting the mandated optimization: the decoder state is
exactly the four fields buf_bulk, pos, buf and res — there is no stored
lower bound on the bytes needed — and after the feed of the bulk header
36 53 13 10 ends in need-more-data (a complete element would need 11
buffered bytes), the very next one-byte feed still performs a parse
attempt of the pending element instead of skipping it. -/
theorem C9_no_rescan_avoidance :
    (∀ d : Decoder, d = ⟨d.buf_bulk, d.pos, d.buf, d.res⟩) ∧
    Decoder.new.feed [36, 53, 13, 10] = (⟨false, 0, [36, 53, 13, 10], []⟩, none) ∧
    feedAttempts ⟨false, 0, [36, 53, 13, 10], []⟩ [97] = 1 ∧
    (⟨false, 0, [36, 53, 13, 10], []⟩ : Decoder).buffer_len + 1 < 11 :=
  ⟨fun _ => rfl, by decide, by decide, by decide⟩

/-- Claim C10: a `feed` call that returns a protocol error leaves the
queue of already-parsed values fully intact — every value queued before
the call survives in order, possibly followed by values parsed within the
same call before the error — only the byte buffer is cleared, and `read`
still returns the oldest queued value first. -/
theorem C10_res_survives_error (d : Decoder) (bs : List Nat) (d2 : Decoder) (e : ErrorMessage)
    (h : d.feed bs = (d2, some e)) :
    (∃ t, d2.res = d.res ++ t) ∧ d2.buf = [] ∧
    (∀ (v : Value) (vs : List Value), d.res = v :: vs → (d2.read).1 = some v) := by
  obtain ⟨hb, hp, _, t, ht⟩ := feed_error_state d bs d2 e h
  refine ⟨⟨t, ht⟩, hb, ?_⟩
  intro v vs hres
  have hcons : d2.res = v :: (vs ++ t) := by rw [ht, hres]; rfl
  simp [Decoder.read, hcons]

/-- Claim C10 witness: a decoder holding a queued `Integer 7` fed a simple
string followed by a malformed element; the erroring feed keeps the old
value, appends the value parsed within the call, and `read` still pops the
old head. -/
theorem C10_res_survives_error_witness :
    (⟨false, 0, [], [.Integer 7]⟩ : Decoder).feed [43, 79, 75, 13, 10, 38, 122, 13, 10] =
      (⟨false, 0, [], [.Integer 7, .Str [79, 75]]⟩, some .ParseInvalid) ∧
    ((∃ t, (⟨false, 0, [], [.Integer 7, .Str [79, 75]]⟩ : Decoder).res =
        (⟨false, 0, [], [.Integer 7]⟩ : Decoder).res ++ t) ∧
      (⟨false, 0, [], [.Integer 7, .Str [79, 75]]⟩ : Decoder).buf = [] ∧
      (∀ (v : Value) (vs : List Value),
        (⟨false, 0, [], [.Integer 7]⟩ : Decoder).res = v :: vs →
        ((⟨false, 0, [], [.Integer 7, .Str [79, 75]]⟩ : Decoder).read).1 = some v)) :=
  ⟨by decide,
    C10_res_survives_error ⟨false, 0, [], [.Integer 7]⟩ [43, 79, 75, 13, 10, 38, 122, 13, 10]
      ⟨false, 0, [], [.Integer 7, .Str [79, 75]]⟩ .ParseInvalid (by decide)⟩
